import Mathlib

/-!
# terraform-mirror: the upload and delete handlers of `main.go`

A shallow embedding of `uploadProvider` and `deleteProvider` together with the
parts of the Go standard library they rely on:

* `regexp`: the two patterns of the program are sequences of literals and
  greedy character-class repetitions; `matchToks` is the backtracking
  (leftmost-first) matcher for such sequences, attempted at offset 0 because
  both patterns start with `^`.
* `encoding/json`: a file is modelled by what `json.Unmarshal` observes in it
  (`Content`), a Go map by a finite map, and the nil map by `none`.
* `os`: the provider directory `providersDir/hostname/namespace/type` is either
  absent (`none`) or a finite map from file names to contents.  A read fails
  exactly when the file (or the directory) is absent; every mutating call may
  fail, as decided by an oracle `fail : Syscall → Outcome`.  A failing call
  that is one system call (the `mkdir` of the directory, the `open` of
  `os.Create`, the `unlink` of `os.Remove`) changes nothing.  A failing
  `os.WriteFile` or `io.Copy` either changes nothing or has opened the file
  with `O_TRUNC` and leaves in it what the oracle says; a failing
  `os.RemoveAll` may have removed the names the oracle says.
* `net/http`: the request is taken to carry the form file `file`; the response
  is the first status code written; a run-time panic of the handler is the
  response `panicked`.
-/

namespace TerraformMirror

/-! ## Data model (main.go, lines 21-34) -/

/-- The Go struct `Archive`: `url` and the optional `hashes`. -/
structure Archive where
  URL : String
  Hashes : List String
deriving DecidableEq

/-- The Go type `map[string]Archive`. -/
abbrev Archives := Finmap (fun _ : String => Archive)

/-- The Go struct `Index`; `Version` is the empty struct, so the map
`map[string]Version` is a finite set of keys, and `none` is the nil map. -/
structure Index where
  Versions : Option (Finset String)
deriving DecidableEq

/-- The Go struct `Packages`; `none` is the nil map. -/
structure Packages where
  Archives : Option Archives
deriving DecidableEq

/-- What a file holds, up to what `json.Unmarshal` can observe: `blob` is a
file that is not valid JSON, `json versions archives` is a JSON document whose
`versions` member decodes to `versions` and whose `archives` member decodes to
`archives` (`none` when the member is missing, null, or not an object). -/
inductive Content
  | blob (bytes : List Nat)
  | json (versions : Option (Finset String)) (archives : Option Archives)
deriving DecidableEq

/-- The provider directory: file name to content. -/
abbrev Dir := Finmap (fun _ : String => Content)

/-- The call `json.Unmarshal(data, &index)` on a zero `Index`. -/
def unmarshalIndex : Content → Index
  | .blob _ => ⟨none⟩
  | .json versions _ => ⟨versions⟩

/-- The call `json.Unmarshal(data, &packages)` on a zero `Packages`. -/
def unmarshalPackages : Content → Packages
  | .blob _ => ⟨none⟩
  | .json _ archives => ⟨archives⟩

/-- The call `json.MarshalIndent(index, "", " ")`. -/
def marshalIndex (index : Index) : Content := .json index.Versions none

/-- The call `json.MarshalIndent(packages, "", " ")`. -/
def marshalPackages (packages : Packages) : Content := .json none packages.Archives

/-! ## Regular expressions -/

/-- One element of a pattern: a literal, a greedy captured repetition `[class]+`,
or the end-of-text assertion `$`. -/
inductive Tok
  | lit (cs : List Char)
  | cls (p : Char → Bool)
  | eot

/-- The class `[\w]`, also written `[\w_]`. -/
def isWord (c : Char) : Bool :=
  ('0' ≤ c && c ≤ '9') || ('A' ≤ c && c ≤ 'Z') || c == '_' || ('a' ≤ c && c ≤ 'z')

/-- The class `[\d.]`. -/
def isDigitDot (c : Char) : Bool := ('0' ≤ c && c ≤ '9') || c == '.'

/-- Consume the literal at the head of the text. -/
def stripLit : List Char → List Char → Option (List Char)
  | [], s => some s
  | _ :: _, [] => none
  | a :: l, c :: s => if a = c then stripLit l s else none

/-- Greedy `[class]+` followed by the continuation `k`: the longest run is tried
first, then shorter ones.  Returns the run and the result of the continuation. -/
def matchPlus {R : Type} (p : Char → Bool) (k : List Char → Option R) :
    List Char → Option (List Char × R)
  | [] => none
  | c :: s =>
    if p c then
      match matchPlus p k s with
      | some (g, r) => some (c :: g, r)
      | none => (k s).map (fun r => ([c], r))
    else none

/-- Match a pattern at the head of the text: the captured groups and the text
left after the match. -/
def matchToks : List Tok → List Char → Option (List (List Char) × List Char)
  | [], s => some ([], s)
  | .lit l :: ts, s => (stripLit l s).bind (matchToks ts)
  | .cls p :: ts, s =>
    (matchPlus p (matchToks ts) s).map (fun gr => (gr.1 :: gr.2.1, gr.2.2))
  | .eot :: ts, s =>
    match s with
    | [] => matchToks ts []
    | _ :: _ => none

/-- The method `(*Regexp).FindStringSubmatch`: the whole match followed by the
groups, or the nil slice when the pattern does not match. -/
def FindStringSubmatch (re : List Tok) (s : String) : List String :=
  match matchToks re s.data with
  | none => []
  | some (groups, rest) =>
    String.mk (s.data.take (s.data.length - rest.length)) :: groups.map String.mk

/-- The method `(*Regexp).MatchString`. -/
def MatchString (re : List Tok) (s : String) : Bool :=
  (matchToks re s.data).isSome

/-- The pattern of line 53, `^terraform-provider-([\w]+)_([\d.]+)_([\w_]+)`. -/
def uploadReg : List Tok :=
  [.lit "terraform-provider-".data, .cls isWord, .lit "_".data, .cls isDigitDot,
   .lit "_".data, .cls isWord]

/-- The pattern of line 206, `^terraform-provider-[\w]+_[\d.]+_[\w_]+\.zip$`. -/
def scanReg : List Tok :=
  [.lit "terraform-provider-".data, .cls isWord, .lit "_".data, .cls isDigitDot,
   .lit "_".data, .cls isWord, .lit ".zip".data, .eot]

/-- The loop of `filepath.Ext`, on the reversed path: stop at a separator,
return the suffix that starts at the last dot. -/
def extLoop : List Char → List Char → List Char
  | [], _ => []
  | c :: s, acc =>
    if c = '/' then [] else if c = '.' then '.' :: acc else extLoop s (c :: acc)

/-- The function `filepath.Ext`. -/
def Ext (path : String) : String := String.mk (extLoop path.data.reverse [])

/-! ## Storage and responses -/

/-- The mutating system calls of the two handlers. -/
inductive Syscall
  | mkdirAll | writeIndex | writePackages | create | copy
  | removePackages | removeIndex | removeAll | removeArchive
deriving DecidableEq

/-- How a mutating system call ends: it succeeds; it fails and has changed
nothing; a write fails after the file was created or truncated and `left` is
what the file holds then (nothing, a part of the data, or all of it when only
the close fails); `os.RemoveAll` fails after the names `gone` were removed. -/
inductive Outcome
  | done
  | refused
  | torn (left : Content)
  | partly (gone : List String)
deriving DecidableEq

/-- The call returns an error. -/
def Outcome.fails : Outcome → Bool
  | .done => false
  | _ => true

/-- The directory after a failing write to the file `name`. -/
def afterFailedWrite (o : Outcome) (d : Dir) (name : String) : Dir :=
  match o with
  | .torn left => d.insert name left
  | _ => d

/-- The directory after a failing `os.RemoveAll`. -/
def afterFailedRemoveAll (o : Outcome) (d : Dir) : Dir :=
  match o with
  | .partly gone => gone.foldl (fun acc name => acc.erase name) d
  | _ => d

/-- No system call fails. -/
def noFault : Syscall → Outcome := fun _ => .done

/-- What the client gets: a status code, or nothing when the handler panics. -/
inductive Response
  | panicked
  | status (code : Nat)
deriving DecidableEq

/-- The response and the provider directory after a handler has run. -/
structure Result where
  response : Response
  fs : Option Dir
deriving DecidableEq

/-- The call `os.ReadFile(providerBasePath/name)`; `none` is the error. -/
def ReadFile (fs : Option Dir) (name : String) : Option Content :=
  fs.bind (fun d => d.lookup name)

/-- Write the status `code` unless a status has been written already
(`http.Error`, `w.WriteHeader`). -/
def respond (w : Option Nat) (code : Nat) : Response :=
  match w with
  | none => .status code
  | some c => .status c

/-! ## uploadProvider (main.go, lines 36-134) -/

/-- Lines 77-83: the map `versions`, a fresh map unless `index.json` can be
read, else whatever `json.Unmarshal` left in `indexPrev.Versions`. -/
def loadVersions (d : Dir) : Option (Finset String) :=
  match d.lookup "index.json" with
  | some indexJson => (unmarshalIndex indexJson).Versions
  | none => some ∅

/-- Lines 78-88: the map `archives`, a fresh map unless `{version}.json` can be
read, else whatever `json.Unmarshal` left in `packagesPrev.Archives`. -/
def loadArchives (d : Dir) (providerVersion : String) : Option Archives :=
  match d.lookup (providerVersion ++ ".json") with
  | some packagesJson => (unmarshalPackages packagesJson).Archives
  | none => some ∅

/-- Lines 75-132: load both documents, insert (an insertion into the nil map
panics), write `index.json`, then `{version}.json`, then the archive.  `w` is
the status written so far. -/
def uploadStore (fail : Syscall → Outcome) (w : Option Nat)
    (filename providerVersion providerArch : String) (body : Content) (d : Dir) : Result :=
  match loadVersions d with
  | none => ⟨.panicked, some d⟩
  | some versions =>
    let index : Index := ⟨some (insert providerVersion versions)⟩
    match loadArchives d providerVersion with
    | none => ⟨.panicked, some d⟩
    | some archives =>
      let packages : Packages := ⟨some (archives.insert providerArch ⟨filename, []⟩)⟩
      if (fail .writeIndex).fails then
        ⟨respond w 500, some (afterFailedWrite (fail .writeIndex) d "index.json")⟩ else
      let d1 := d.insert "index.json" (marshalIndex index)
      if (fail .writePackages).fails then
        ⟨respond w 500,
          some (afterFailedWrite (fail .writePackages) d1 (providerVersion ++ ".json"))⟩ else
      let d2 := d1.insert (providerVersion ++ ".json") (marshalPackages packages)
      if (fail .create).fails then ⟨respond w 500, some d2⟩ else
      let d3 := d2.insert filename (.blob [])
      if (fail .copy).fails then
        ⟨respond w 500, some (afterFailedWrite (fail .copy) d3 filename)⟩ else
      ⟨respond w 200, some (d3.insert filename body)⟩

/-- The handler returned by `uploadProvider`, for the path variable `type`, the
uploaded file name `handler.Filename` and the uploaded bytes `body`. -/
def uploadProvider (fail : Syscall → Outcome) (type filename : String) (body : Content)
    (fs : Option Dir) : Result :=
  let m := FindStringSubmatch uploadReg filename
  match m[1]? with
  | none => ⟨.panicked, fs⟩
  | some providerName =>
    if providerName ≠ type then ⟨.status 400, fs⟩ else
    let w : Option Nat := if Ext filename ≠ ".zip" then some 415 else none
    match m[2]?, m[3]? with
    | some providerVersion, some providerArch =>
      match fs with
      | none =>
        if (fail .mkdirAll).fails then ⟨respond w 500, none⟩
        else uploadStore fail w filename providerVersion providerArch body ∅
      | some d => uploadStore fail w filename providerVersion providerArch body d
    | _, _ => ⟨.panicked, fs⟩

/-! ## deleteProvider (main.go, lines 136-237) -/

/-- The built-in `len` on a possibly nil map. -/
def lenArchives : Option Archives → Nat
  | none => 0
  | some archives => archives.keys.card

/-- Lines 146-172: `packages.Archives` and `providerFilename` after the
first block, with the directory; or the response of an early return. -/
def deletePackages (fail : Syscall → Outcome) (version arch : String) (fs : Option Dir) :
    Except Result (Option Archives × String × Option Dir) :=
  match fs with
  | none => .ok (none, "", fs)
  | some d =>
    match d.lookup (version ++ ".json") with
    | none => .ok (none, "", fs)
    | some packagesJson =>
      match (unmarshalPackages packagesJson).Archives with
      | none => .ok (none, "", fs)
      | some archives =>
        match archives.lookup arch with
        | none => .ok (some archives, "", fs)
        | some a =>
          let archives1 := archives.erase arch
          if archives1.keys.card = 0 then
            if (fail .removePackages).fails then .error ⟨.status 500, fs⟩
            else .ok (some archives1, a.URL, some (d.erase (version ++ ".json")))
          else
            if (fail .writePackages).fails then
              .error ⟨.status 500,
                some (afterFailedWrite (fail .writePackages) d (version ++ ".json"))⟩
            else .ok (some archives1, a.URL,
              some (d.insert (version ++ ".json") (marshalPackages ⟨some archives1⟩)))

/-- Lines 173-200: the directory after the second block, or the response of an
early return. -/
def deleteIndex (fail : Syscall → Outcome) (version : String) (archives : Option Archives)
    (fs : Option Dir) : Except Result (Option Dir) :=
  if lenArchives archives = 0 then
    match fs with
    | none => .ok fs
    | some d =>
      match d.lookup "index.json" with
      | none => .ok fs
      | some indexJson =>
        match (unmarshalIndex indexJson).Versions with
        | none => .ok fs
        | some versions =>
          if version ∈ versions then
            let versions1 := versions.erase version
            if versions1.card = 0 then
              if (fail .removeIndex).fails then .error ⟨.status 500, fs⟩
              else .ok (some (d.erase "index.json"))
            else
              if (fail .writeIndex).fails then
                .error ⟨.status 500, some (afterFailedWrite (fail .writeIndex) d "index.json")⟩
              else .ok (some (d.insert "index.json" (marshalIndex ⟨some versions1⟩)))
          else .ok fs
  else .ok fs

/-- Lines 202-210: the names in the directory that match the archive pattern. -/
def providerArchives (fs : Option Dir) : Finset String :=
  match fs with
  | none => ∅
  | some d => d.keys.filter (fun name => MatchString scanReg name)

/-- Lines 201-235: remove the directory when the archive is the only one left,
else the archive alone; answer 404 when it is not in the directory. -/
def deleteArchive (fail : Syscall → Outcome) (providerFilename : String) (fs : Option Dir) :
    Result :=
  if providerFilename ∈ providerArchives fs then
    if (providerArchives fs).card = 1 then
      if (fail .removeAll).fails then
        ⟨.status 500, fs.map (afterFailedRemoveAll (fail .removeAll))⟩
      else ⟨.status 200, none⟩
    else
      if (fail .removeArchive).fails then ⟨.status 500, fs⟩
      else ⟨.status 200, fs.map (fun d => d.erase providerFilename)⟩
  else ⟨.status 404, fs⟩

/-- The handler returned by `deleteProvider`, for the path variables `version`
and `arch`. -/
def deleteProvider (fail : Syscall → Outcome) (version arch : String) (fs : Option Dir) :
    Result :=
  match deletePackages fail version arch fs with
  | .error r => r
  | .ok (archives, providerFilename, fs1) =>
    match deleteIndex fail version archives fs1 with
    | .error r => r
    | .ok fs2 => deleteArchive fail providerFilename fs2

/-! ## The notions of the specification -/

/-- A version as the upload pattern captures it: digits and dots, not empty. -/
def isVersion (v : String) : Prop := v.data ≠ [] ∧ ∀ c ∈ v.data, isDigitDot c = true

/-- The keys of `index.json`; no key when the document is absent or has no
versions object. -/
def listedVersions (fs : Option Dir) : Finset String :=
  match ReadFile fs "index.json" with
  | some indexJson => (unmarshalIndex indexJson).Versions.getD ∅
  | none => ∅

/-- The archives map of `{version}.json`; `none` when the document is absent or
has no archives object. -/
def archiveIndex (fs : Option Dir) (version : String) : Option Archives :=
  (ReadFile fs (version ++ ".json")).bind (fun c => (unmarshalPackages c).Archives)

/-- The two-tier invariant at one version: it is a key of `index.json` iff
`{version}.json` exists with a non-empty archives map. -/
def TwoTierAt (fs : Option Dir) (v : String) : Prop :=
  v ∈ listedVersions fs ↔ 0 < lenArchives (archiveIndex fs v)

/-- The two-tier invariant over the versions made of digits and dots. -/
def TwoTier (fs : Option Dir) : Prop := ∀ v, isVersion v → TwoTierAt fs v

/-- A provider name or an arch of the file-name format: `[A-Za-z0-9_]+`. -/
def isName (s : String) : Prop := s.data ≠ [] ∧ ∀ c ∈ s.data, isWord c = true

/-- The file name `terraform-provider-<providerName>_<version>_<arch>.zip`. -/
def archiveName (providerName version arch : String) : String :=
  "terraform-provider-" ++ providerName ++ "_" ++ version ++ "_" ++ arch ++ ".zip"

/-- The directory after the writes of an upload that runs to its end: `index.json`,
`{version}.json`, then the archive, created empty and filled with the body. -/
def uploaded (d : Dir) (filename providerVersion providerArch : String) (body : Content)
    (versions : Finset String) (archives : Archives) : Dir :=
  (((d.insert "index.json" (.json (some (insert providerVersion versions)) none)).insert
    (providerVersion ++ ".json")
    (.json none (some (archives.insert providerArch ⟨filename, []⟩)))).insert
    filename (.blob [])).insert filename body

instance (s : String) : Decidable (isName s) := by unfold isName; infer_instance

instance (s : String) : Decidable (isVersion s) := by unfold isVersion; infer_instance

instance (fs : Option Dir) (v : String) : Decidable (TwoTierAt fs v) := by
  unfold TwoTierAt; infer_instance

/-! ## Named inputs and states -/

/-- A well-formed archive file name. -/
def archiveZip : String := "terraform-provider-foo_1.2.3_linux_amd64.zip"

/-- A second archive of the same version. -/
def archiveDarwin : String := "terraform-provider-foo_1.2.3_darwin_arm64.zip"

/-- An archive file name with the extension `.tar`. -/
def archiveTar : String := "terraform-provider-foo_1.2.3_linux_amd64.tar"

/-- A file name with a hyphen after the part the upload pattern matches. -/
def archiveHyphen : String := "terraform-provider-foo_1.2.3_linux-amd64.zip"

/-- A file name that the upload pattern matches and that ends in `.json`. -/
def archiveJson : String := "terraform-provider-foo_1.0_x.json"

/-- The uploaded bytes: not a JSON document. -/
def zipBytes : Content := .blob [80, 75, 3, 4]

/-- Uploaded bytes that are a JSON document with an `archives` member. -/
def jsonBytes : Content := .json none (some ((∅ : Archives).insert "k" ⟨"u", []⟩))

/-- Only the write of `{version}.json` fails, before the file is opened. -/
def failWritePackages : Syscall → Outcome :=
  fun s => if s = .writePackages then .refused else .done

/-- Only the write of `{version}.json` fails, after the file was truncated: one
byte of the new document is in it. -/
def tearWritePackages : Syscall → Outcome :=
  fun s => if s = .writePackages then .torn (.blob [123]) else .done

/-- The directory after the first upload of `archiveZip`. -/
def oneArchiveDir : Dir := uploaded ∅ archiveZip "1.2.3" "linux_amd64" zipBytes ∅ ∅

/-- A directory whose `index.json` lists a version that has no document. -/
def danglingDir : Dir := (∅ : Dir).insert "index.json" (.json (some {"1.2.3"}) none)

/-- A directory whose `index.json` is the JSON document `{}`. -/
def corruptIndexDir : Dir := (∅ : Dir).insert "index.json" (.json none none)

/-- A directory whose `index.json` is not valid JSON. -/
def invalidIndexDir : Dir := (∅ : Dir).insert "index.json" (.blob [123])

/-- A directory whose `1.2.3.json` is the JSON document `{}`. -/
def corruptPackagesDir : Dir := (∅ : Dir).insert "1.2.3.json" (.json none none)

/-- A directory whose `index.json` has an `archives` member next to `versions`. -/
def aliasDir : Dir :=
  ((∅ : Dir).insert "index.json"
      (.json (some {"index", "1.0"}) (some ((∅ : Archives).insert "a" ⟨"x", []⟩)))).insert
    "1.0.json" (.json none (some ((∅ : Archives).insert "linux_amd64" ⟨"y", []⟩)))

/-- Two versions are listed, the archive of the second is not in the directory. -/
def driftDir : Dir :=
  ((((∅ : Dir).insert "index.json" (.json (some {"1.0", "2.0"}) none)).insert "1.0.json"
      (.json none (some ((∅ : Archives).insert "linux_amd64"
        ⟨"terraform-provider-foo_1.0_linux_amd64.zip", []⟩)))).insert "2.0.json"
      (.json none (some ((∅ : Archives).insert "linux_amd64"
        ⟨"terraform-provider-foo_2.0_linux_amd64.zip", []⟩)))).insert
    "terraform-provider-foo_1.0_linux_amd64.zip" zipBytes

/-! ## The matcher -/

theorem stripLit_sound : ∀ (l s r : List Char), stripLit l s = some r → s = l ++ r
  | [], s, r, h => by simpa [stripLit] using h
  | _ :: _, [], r, h => by simp [stripLit] at h
  | a :: l, c :: s, r, h => by
    by_cases hac : a = c
    · subst hac
      simp only [stripLit, if_true] at h
      simp [stripLit_sound l s r h]
    · simp [stripLit, hac] at h

theorem stripLit_append (l r : List Char) : stripLit l (l ++ r) = some r := by
  induction l with
  | nil => simp [stripLit]
  | cons a l ih => simp [stripLit, ih]

theorem matchPlus_sound {R : Type} (p : Char → Bool) (k : List Char → Option R) :
    ∀ (s g : List Char) (r : R), matchPlus p k s = some (g, r) →
      g ≠ [] ∧ (∀ c ∈ g, p c = true) ∧ ∃ rest, s = g ++ rest ∧ k rest = some r
  | [], g, r, h => by simp [matchPlus] at h
  | c :: s, g, r, h => by
    by_cases hp : p c = true
    · simp only [matchPlus, hp, if_true] at h
      cases hm : matchPlus p k s with
      | some gr =>
        obtain ⟨g1, r1⟩ := gr
        rw [hm] at h
        simp only [Option.some.injEq, Prod.mk.injEq] at h
        obtain ⟨hg, hr⟩ := h
        subst hg; subst hr
        obtain ⟨_, hall, rest, hs, hk⟩ := matchPlus_sound p k s g1 r1 hm
        refine ⟨by simp, ?_, rest, by simp [hs], hk⟩
        intro x hx
        rcases List.mem_cons.mp hx with hx | hx
        · rw [hx]; exact hp
        · exact hall x hx
      | none =>
        rw [hm] at h
        cases hk : k s with
        | none => simp [hk] at h
        | some r1 =>
          simp only [hk, Option.map_some', Option.some.injEq, Prod.mk.injEq] at h
          obtain ⟨hg, hr⟩ := h
          subst hg; subst hr
          exact ⟨by simp, by simpa using hp, s, by simp, hk⟩
    · simp [matchPlus, hp] at h

/-- Greedy choice: a run none of whose proper extensions lets the continuation
succeed is the run that is captured. -/
theorem matchPlus_greedy {R : Type} (p : Char → Bool) (k : List Char → Option R) (x : R) :
    ∀ (g rest : List Char), g ≠ [] → (∀ c ∈ g, p c = true) → k rest = some x →
      (∀ g1 r1, g1 ≠ [] → (∀ c ∈ g1, p c = true) → g ++ g1 ++ r1 = g ++ rest → k r1 = none) →
      matchPlus p k (g ++ rest) = some (g, x)
  | [], _, h, _, _, _ => absurd rfl h
  | [c], rest, _, hall, hk, hlong => by
    have hp : p c = true := hall c (by simp)
    have hnone : matchPlus p k rest = none := by
      cases hm : matchPlus p k rest with
      | none => rfl
      | some gr =>
        obtain ⟨g1, r1⟩ := gr
        obtain ⟨hne, hall1, rest1, hs, hk1⟩ := matchPlus_sound p k rest g1 r1 hm
        have := hlong g1 rest1 hne hall1 (by simp [hs])
        rw [this] at hk1
        cases hk1
    simp [matchPlus, hp, hnone, hk]
  | c :: c2 :: g, rest, _, hall, hk, hlong => by
    have hp : p c = true := hall c (by simp)
    have ih := matchPlus_greedy p k x (c2 :: g) rest (by simp)
      (fun y hy => hall y (List.mem_cons_of_mem _ hy)) hk
      (fun g1 r1 hne hall1 heq => hlong g1 r1 hne hall1 (by simpa using heq))
    have hcons : matchPlus p k (c :: (c2 :: g ++ rest)) = some (c :: c2 :: g, x) := by
      rw [matchPlus, if_pos hp, ih]
    simpa using hcons

theorem matchToks_lit_sound (l : List Char) (ts : List Tok) (s : List Char)
    (x : List (List Char) × List Char) (h : matchToks (.lit l :: ts) s = some x) :
    ∃ r, s = l ++ r ∧ matchToks ts r = some x := by
  simp only [matchToks] at h
  obtain ⟨r, hr, hx⟩ := Option.bind_eq_some.mp h
  exact ⟨r, stripLit_sound l s r hr, hx⟩

theorem matchToks_cls_sound (p : Char → Bool) (ts : List Tok) (s : List Char)
    (x : List (List Char) × List Char) (h : matchToks (.cls p :: ts) s = some x) :
    ∃ g r y, x = (g :: y.1, y.2) ∧ s = g ++ r ∧ g ≠ [] ∧ (∀ c ∈ g, p c = true) ∧
      matchToks ts r = some y := by
  simp only [matchToks] at h
  obtain ⟨⟨g, y⟩, hm, hx⟩ := Option.map_eq_some'.mp h
  obtain ⟨hne, hall, r, hs, hk⟩ := matchPlus_sound p (matchToks ts) s g y hm
  exact ⟨g, r, y, hx.symm, hs, hne, hall, hk⟩

/-- What a match of the upload pattern looks like. -/
theorem matchToks_uploadReg_sound (s : List Char) (x : List (List Char) × List Char)
    (h : matchToks uploadReg s = some x) :
    ∃ n v a, x = ([n, v, a], x.2) ∧
      s = "terraform-provider-".data ++ (n ++ ("_".data ++ (v ++ ("_".data ++ (a ++ x.2))))) ∧
      n ≠ [] ∧ (∀ c ∈ n, isWord c = true) ∧ v ≠ [] ∧ (∀ c ∈ v, isDigitDot c = true) ∧
      a ≠ [] ∧ (∀ c ∈ a, isWord c = true) := by
  obtain ⟨r1, hs1, h1⟩ := matchToks_lit_sound _ _ _ _ h
  obtain ⟨n, r2, y2, hx2, hs2, hn, halln, h2⟩ := matchToks_cls_sound _ _ _ _ h1
  obtain ⟨r3, hs3, h3⟩ := matchToks_lit_sound _ _ _ _ h2
  obtain ⟨v, r4, y4, hx4, hs4, hv, hallv, h4⟩ := matchToks_cls_sound _ _ _ _ h3
  obtain ⟨r5, hs5, h5⟩ := matchToks_lit_sound _ _ _ _ h4
  obtain ⟨a, r6, y6, hx6, hs6, ha, halla, h6⟩ := matchToks_cls_sound _ _ _ _ h5
  simp only [matchToks, Option.some.injEq] at h6
  subst h6
  subst hx6
  subst hx4
  subst hx2
  refine ⟨n, v, a, rfl, ?_, hn, halln, hv, hallv, ha, halla⟩
  rw [hs1, hs2, hs3, hs4, hs5, hs6]

/-- The result of `FindStringSubmatch` for the upload pattern: nil, or the
whole match and three groups, the file name starting with the literal and the
second group being digits and dots. -/
theorem FindStringSubmatch_uploadReg (f : String) :
    FindStringSubmatch uploadReg f = [] ∨
    ∃ w n v a r, FindStringSubmatch uploadReg f = [w, n, v, a] ∧
      f.data = "terraform-provider-".data ++ r ∧ isVersion v := by
  unfold FindStringSubmatch
  cases h : matchToks uploadReg f.data with
  | none => exact Or.inl rfl
  | some x =>
    right
    obtain ⟨n, v, a, hx, hs, -, -, hv, hallv, -, -⟩ := matchToks_uploadReg_sound _ _ h
    obtain ⟨groups, rest⟩ := x
    simp only [Prod.mk.injEq, and_true] at hx
    subst hx
    exact ⟨_, String.mk n, String.mk v, String.mk a, _, rfl, hs, hv, hallv⟩

theorem FindStringSubmatch_uploadReg_eq (f w n v a : String)
    (h : FindStringSubmatch uploadReg f = [w, n, v, a]) :
    (∃ r, f.data = "terraform-provider-".data ++ r) ∧ isVersion v := by
  rcases FindStringSubmatch_uploadReg f with h0 | ⟨w1, n1, v1, a1, r, h1, hf, hv⟩
  · rw [h0] at h; cases h
  · rw [h1] at h
    simp only [List.cons.injEq, and_true] at h
    obtain ⟨-, -, hv1, -⟩ := h
    subst hv1
    exact ⟨⟨r, hf⟩, hv⟩

theorem MatchString_scanReg (f : String) (h : MatchString scanReg f = true) :
    ∃ r, f.data = "terraform-provider-".data ++ r := by
  unfold MatchString at h
  obtain ⟨x, hx⟩ := Option.isSome_iff_exists.mp h
  obtain ⟨r, hs, -⟩ := matchToks_lit_sound _ _ _ _ hx
  exact ⟨r, hs⟩

theorem matchToks_scanReg_sound (s : List Char) (x : List (List Char) × List Char)
    (h : matchToks scanReg s = some x) : ∃ t, s = t ++ ".zip".data := by
  obtain ⟨r1, hs1, h1⟩ := matchToks_lit_sound _ _ _ _ h
  obtain ⟨n, r2, y2, -, hs2, -, -, h2⟩ := matchToks_cls_sound _ _ _ _ h1
  obtain ⟨r3, hs3, h3⟩ := matchToks_lit_sound _ _ _ _ h2
  obtain ⟨v, r4, y4, -, hs4, -, -, h4⟩ := matchToks_cls_sound _ _ _ _ h3
  obtain ⟨r5, hs5, h5⟩ := matchToks_lit_sound _ _ _ _ h4
  obtain ⟨a, r6, y6, -, hs6, -, -, h6⟩ := matchToks_cls_sound _ _ _ _ h5
  obtain ⟨r7, hs7, h7⟩ := matchToks_lit_sound _ _ _ _ h6
  have hr7 : r7 = [] := by
    cases r7 with
    | nil => rfl
    | cons c r => simp [matchToks] at h7
  refine ⟨"terraform-provider-".data ++ (n ++ ("_".data ++ (v ++ ("_".data ++ a)))), ?_⟩
  rw [hs1, hs2, hs3, hs4, hs5, hs6, hs7, hr7]
  simp [List.append_assoc]

/-! ## Archive names with a dotted version -/

/-- A run of word characters that starts inside a dotted version stops inside
it: what follows starts with a digit or a dot. -/
theorem word_run_stops_in_version :
    ∀ (g v t r : List Char), g ++ r = v ++ t → (∀ c ∈ g, isWord c = true) →
      (∀ c ∈ v, isDigitDot c = true) → '.' ∈ v → ∃ c r1, r = c :: r1 ∧ isDigitDot c = true
  | [], v, t, r, h, _, hv, hdot => by
    cases v with
    | nil => simp at hdot
    | cons c v1 => exact ⟨c, v1 ++ t, by simpa using h, hv c (by simp)⟩
  | c :: g, v, t, r, h, hg, hv, hdot => by
    cases v with
    | nil => simp at hdot
    | cons c1 v1 =>
      simp only [List.cons_append, List.cons.injEq] at h
      obtain ⟨hc, h⟩ := h
      subst hc
      have hcw : isWord c = true := hg c (by simp)
      have hne : c ≠ '.' := by
        intro e; rw [e] at hcw; exact absurd hcw (by decide)
      have hdot1 : '.' ∈ v1 := by
        rcases List.mem_cons.mp hdot with e | e
        · exact absurd e.symm hne
        · exact e
      exact word_run_stops_in_version g v1 t r h (fun x hx => hg x (List.mem_cons_of_mem _ hx))
        (fun x hx => hv x (List.mem_cons_of_mem _ hx)) hdot1

theorem matchToks_uploadReg_dotted (n v a : List Char)
    (hn : n ≠ []) (hnw : ∀ c ∈ n, isWord c = true)
    (hv : v ≠ []) (hvd : ∀ c ∈ v, isDigitDot c = true) (hdot : '.' ∈ v)
    (ha : a ≠ []) (haw : ∀ c ∈ a, isWord c = true) :
    matchToks uploadReg
      ("terraform-provider-".data ++ (n ++ ("_".data ++ (v ++ ("_".data ++ (a ++ ".zip".data))))))
      = some ([n, v, a], ".zip".data) := by
  -- the third group
  have h3 : matchPlus isWord (matchToks []) (a ++ ".zip".data) = some (a, ([], ".zip".data)) := by
    apply matchPlus_greedy isWord (matchToks []) ([], ".zip".data) a ".zip".data ha haw rfl
    intro g1 r1 hg1 hall hE
    have hE1 : g1 ++ r1 = ".zip".data := by
      simpa [List.append_assoc] using hE
    cases g1 with
    | nil => exact absurd rfl hg1
    | cons c g2 =>
      have hc : c = '.' := by
        have := congrArg List.head? hE1
        simpa using this
      have := hall c (by simp)
      rw [hc] at this
      exact absurd this (by decide)
  have h3t : matchToks [.lit "_".data, .cls isWord] ("_".data ++ (a ++ ".zip".data))
      = some ([a], ".zip".data) := by
    rw [matchToks, stripLit_append, Option.some_bind, matchToks, h3]
    rfl
  -- the second group
  have h2 : matchPlus isDigitDot (matchToks [.lit "_".data, .cls isWord])
      (v ++ ("_".data ++ (a ++ ".zip".data))) = some (v, ([a], ".zip".data)) := by
    apply matchPlus_greedy isDigitDot _ ([a], ".zip".data) v _ hv hvd h3t
    intro g1 r1 hg1 hall hE
    have hE1 : g1 ++ r1 = "_".data ++ (a ++ ".zip".data) := by
      simpa [List.append_assoc] using hE
    cases g1 with
    | nil => exact absurd rfl hg1
    | cons c g2 =>
      have hc : c = '_' := by
        have := congrArg List.head? hE1
        simpa using this
      have := hall c (by simp)
      rw [hc] at this
      exact absurd this (by decide)
  have h2t : matchToks [.lit "_".data, .cls isDigitDot, .lit "_".data, .cls isWord]
      ("_".data ++ (v ++ ("_".data ++ (a ++ ".zip".data)))) = some ([v, a], ".zip".data) := by
    rw [matchToks, stripLit_append, Option.some_bind, matchToks, h2]
    rfl
  -- the first group
  have h1 : matchPlus isWord
      (matchToks [.lit "_".data, .cls isDigitDot, .lit "_".data, .cls isWord])
      (n ++ ("_".data ++ (v ++ ("_".data ++ (a ++ ".zip".data)))))
      = some (n, ([v, a], ".zip".data)) := by
    apply matchPlus_greedy isWord _ ([v, a], ".zip".data) n _ hn hnw h2t
    intro g1 r1 hg1 hall hE
    have hE1 : g1 ++ r1 = "_".data ++ (v ++ ("_".data ++ (a ++ ".zip".data))) := by
      simpa [List.append_assoc] using hE
    cases g1 with
    | nil => exact absurd rfl hg1
    | cons c g2 =>
      have hE2 : g2 ++ r1 = v ++ ("_".data ++ (a ++ ".zip".data)) := by
        have := congrArg List.tail hE1
        simpa using this
      obtain ⟨c1, r2, hr, hc1⟩ := word_run_stops_in_version g2 v _ r1 hE2
        (fun x hx => hall x (List.mem_cons_of_mem _ hx)) hvd hdot
      have hne : '_' ≠ c1 := by
        intro e; rw [← e] at hc1; exact absurd hc1 (by decide)
      rw [hr, matchToks]
      have : stripLit "_".data (c1 :: r2) = none := by
        show stripLit ['_'] (c1 :: r2) = none
        simp [stripLit, hne]
      rw [this]
      rfl
  unfold uploadReg
  rw [matchToks, stripLit_append, Option.some_bind, matchToks, h1]
  rfl

theorem archiveName_data (n v a : String) :
    (archiveName n v a).data =
      "terraform-provider-".data ++ (n.data ++ ("_".data ++ (v.data ++ ("_".data ++
        (a.data ++ ".zip".data))))) := by
  simp [archiveName, String.data_append, List.append_assoc]

theorem FindStringSubmatch_archiveName (n v a : String) (hn : isName n) (hv : isVersion v)
    (hdot : '.' ∈ v.data) (ha : isName a) :
    FindStringSubmatch uploadReg (archiveName n v a) =
      ["terraform-provider-" ++ n ++ "_" ++ v ++ "_" ++ a, n, v, a] := by
  unfold FindStringSubmatch
  rw [archiveName_data,
    matchToks_uploadReg_dotted n.data v.data a.data hn.1 hn.2 hv.1 hv.2 hdot ha.1 ha.2]
  simp only [List.map_cons, List.map_nil, List.cons.injEq, and_true]
  apply String.ext
  have hlen : ∀ x : List Char, (x ++ ".zip".data).length - ".zip".data.length = x.length := by
    intro x; simp
  have hassoc : "terraform-provider-".data ++ (n.data ++ ("_".data ++ (v.data ++ ("_".data ++
        (a.data ++ ".zip".data))))) =
      ("terraform-provider-".data ++ (n.data ++ ("_".data ++ (v.data ++ ("_".data ++
        a.data))))) ++ ".zip".data := by
    simp [List.append_assoc]
  rw [hassoc, hlen, List.take_left']
  · simp [String.data_append, List.append_assoc]
  · rfl

theorem Ext_zip (s : String) : Ext (s ++ ".zip") = ".zip" := by
  unfold Ext
  apply String.ext
  have : (s ++ ".zip").data.reverse = 'p' :: 'i' :: 'z' :: '.' :: s.data.reverse := by
    simp [String.data_append]
  rw [this]
  simp [extLoop]

/-! ## File names -/

theorem json_name_inj (v w : String) : v ++ ".json" = w ++ ".json" ↔ v = w := by
  constructor
  · intro h
    have := congrArg String.data h
    simp only [String.data_append] at this
    exact String.ext (List.append_cancel_right this)
  · intro h; rw [h]

theorem json_name_eq_index (v : String) : v ++ ".json" = "index.json" ↔ v = "index" := by
  have : ("index.json" : String) = "index" ++ ".json" := by decide
  rw [this, json_name_inj]

theorem isVersion_ne_index (v : String) (hv : isVersion v) : v ≠ "index" := by
  intro h
  subst h
  have := hv.2 'i' (by decide)
  exact absurd this (by decide)

theorem json_ne_index_of_isVersion (v : String) (hv : isVersion v) :
    v ++ ".json" ≠ "index.json" :=
  fun h => isVersion_ne_index v hv ((json_name_eq_index v).mp h)

theorem archive_name_ne_index (f : String) (r : List Char)
    (hf : f.data = "terraform-provider-".data ++ r) : f ≠ "index.json" := by
  intro h
  subst h
  simp at hf

theorem archive_name_ne_json (f : String) (r : List Char)
    (hf : f.data = "terraform-provider-".data ++ r) (v : String) (hv : isVersion v) :
    f ≠ v ++ ".json" := by
  intro h
  subst h
  obtain ⟨hne, hall⟩ := hv
  rw [String.data_append] at hf
  cases hd : v.data with
  | nil => exact hne hd
  | cons c t =>
    rw [hd] at hf
    have hc : c = 't' := by
      have := congrArg List.head? hf
      simpa using this
    have := hall c (by rw [hd]; simp)
    rw [hc] at this
    exact absurd this (by decide)

theorem json_not_archive (v : String) : MatchString scanReg (v ++ ".json") = false := by
  cases h : MatchString scanReg (v ++ ".json") with
  | false => rfl
  | true =>
    unfold MatchString at h
    obtain ⟨x, hx⟩ := Option.isSome_iff_exists.mp h
    obtain ⟨t, ht⟩ := matchToks_scanReg_sound _ _ hx
    rw [String.data_append] at ht
    have := congrArg (fun l => l.reverse.head?) ht
    simp at this

theorem index_not_archive : MatchString scanReg "index.json" = false := by decide

theorem empty_not_archive (fs : Option Dir) : "" ∉ providerArchives fs := by
  cases fs with
  | none => simp [providerArchives]
  | some d =>
    have : MatchString scanReg "" = false := by decide
    simp [providerArchives, this]

/-! ## Observations of a directory -/

theorem listedVersions_none : listedVersions none = ∅ := rfl

theorem archiveIndex_none (v : String) : archiveIndex none v = none := rfl

theorem listedVersions_some (d : Dir) :
    listedVersions (some d) =
      match d.lookup "index.json" with
      | some c => (unmarshalIndex c).Versions.getD ∅
      | none => ∅ := rfl

theorem archiveIndex_some (d : Dir) (v : String) :
    archiveIndex (some d) v =
      (d.lookup (v ++ ".json")).bind (fun c => (unmarshalPackages c).Archives) := rfl

theorem listedVersions_insert_ne (d : Dir) (x : String) (c : Content) (hx : x ≠ "index.json") :
    listedVersions (some (d.insert x c)) = listedVersions (some d) := by
  simp only [listedVersions_some]
  rw [Finmap.lookup_insert_of_ne _ (Ne.symm hx)]

theorem listedVersions_erase_ne (d : Dir) (x : String) (hx : x ≠ "index.json") :
    listedVersions (some (d.erase x)) = listedVersions (some d) := by
  simp only [listedVersions_some]
  rw [Finmap.lookup_erase_ne (Ne.symm hx)]

theorem listedVersions_insert_index (d : Dir) (vs : Finset String) (a : Option Archives) :
    listedVersions (some (d.insert "index.json" (.json (some vs) a))) = vs := by
  simp [listedVersions_some, Finmap.lookup_insert, unmarshalIndex]

theorem listedVersions_erase_index (d : Dir) :
    listedVersions (some (d.erase "index.json")) = ∅ := by
  simp [listedVersions_some, Finmap.lookup_erase]

theorem listedVersions_eq_of_index (fs fs1 : Option Dir)
    (h : ReadFile fs1 "index.json" = ReadFile fs "index.json") :
    listedVersions fs1 = listedVersions fs := by
  unfold listedVersions
  rw [h]

theorem archiveIndex_insert_ne (d : Dir) (x v : String) (c : Content) (hx : x ≠ v ++ ".json") :
    archiveIndex (some (d.insert x c)) v = archiveIndex (some d) v := by
  simp only [archiveIndex_some]
  rw [Finmap.lookup_insert_of_ne _ (Ne.symm hx)]

theorem archiveIndex_erase_ne (d : Dir) (x v : String) (hx : x ≠ v ++ ".json") :
    archiveIndex (some (d.erase x)) v = archiveIndex (some d) v := by
  simp only [archiveIndex_some]
  rw [Finmap.lookup_erase_ne (Ne.symm hx)]

theorem archiveIndex_insert_self (d : Dir) (v : String) (vs : Option (Finset String))
    (m : Option Archives) :
    archiveIndex (some (d.insert (v ++ ".json") (.json vs m))) v = m := by
  simp [archiveIndex_some, Finmap.lookup_insert, unmarshalPackages]

theorem archiveIndex_erase_self (d : Dir) (v : String) :
    archiveIndex (some (d.erase (v ++ ".json"))) v = none := by
  simp [archiveIndex_some, Finmap.lookup_erase]

theorem ReadFile_erase_none (fs : Option Dir) (x y : String) (h : ReadFile fs x = none) :
    ReadFile (fs.map (fun d => d.erase y)) x = none := by
  cases fs with
  | none => rfl
  | some d =>
    simp only [ReadFile, Option.map_some', Option.some_bind] at h ⊢
    by_cases hxy : x = y
    · rw [hxy]; exact Finmap.lookup_erase _ _
    · rw [Finmap.lookup_erase_ne hxy]; exact h

theorem ReadFile_erase_archive (fs : Option Dir) (y : String) (hy : y ∈ providerArchives fs) :
    ReadFile (fs.map (fun d => d.erase y)) "index.json" = ReadFile fs "index.json" := by
  cases fs with
  | none => rfl
  | some d =>
    simp only [providerArchives, Finset.mem_filter] at hy
    obtain ⟨r, hr⟩ := MatchString_scanReg y hy.2
    simp only [ReadFile, Option.map_some', Option.some_bind]
    exact Finmap.lookup_erase_ne (Ne.symm (archive_name_ne_index y r hr))

theorem providerArchives_erase (d : Dir) (x : String) (hx : MatchString scanReg x = false) :
    providerArchives (some (d.erase x)) = providerArchives (some d) := by
  ext y
  simp only [providerArchives, Finset.mem_filter, Finmap.mem_keys, Finmap.mem_erase]
  constructor
  · rintro ⟨⟨-, hy⟩, hm⟩; exact ⟨hy, hm⟩
  · rintro ⟨hy, hm⟩
    refine ⟨⟨?_, hy⟩, hm⟩
    intro e; rw [e, hx] at hm; cases hm

theorem providerArchives_insert (d : Dir) (x : String) (c : Content)
    (hx : MatchString scanReg x = false) :
    providerArchives (some (d.insert x c)) = providerArchives (some d) := by
  ext y
  simp only [providerArchives, Finset.mem_filter, Finmap.mem_keys, Finmap.mem_insert]
  constructor
  · rintro ⟨hy | hy, hm⟩
    · rw [hy, hx] at hm; cases hm
    · exact ⟨hy, hm⟩
  · rintro ⟨hy, hm⟩; exact ⟨Or.inr hy, hm⟩

theorem TwoTierAt_congr (fs fs1 : Option Dir) (v : String)
    (hl : listedVersions fs1 = listedVersions fs) (ha : archiveIndex fs1 v = archiveIndex fs v) :
    TwoTierAt fs1 v ↔ TwoTierAt fs v := by
  unfold TwoTierAt
  rw [hl, ha]

theorem TwoTier_none : TwoTier none := by
  intro v _
  simp [TwoTierAt, listedVersions_none, archiveIndex_none, lenArchives]

theorem TwoTier_empty : TwoTier (some ∅) := by
  intro v _
  simp [TwoTierAt, listedVersions_some, archiveIndex_some, lenArchives, Finmap.lookup_empty]

theorem lenArchives_insert_pos (m : Archives) (a : String) (b : Archive) :
    0 < lenArchives (some (m.insert a b)) := by
  simp only [lenArchives]
  exact Finset.card_pos.mpr ⟨a, Finmap.mem_keys.mpr (Finmap.mem_insert.mpr (Or.inl rfl))⟩

/-! ## The upload handler -/

theorem loadVersions_listed (d : Dir) (vs : Finset String) (h : loadVersions d = some vs) :
    listedVersions (some d) = vs := by
  unfold loadVersions at h
  rw [listedVersions_some]
  cases hl : d.lookup "index.json" with
  | none => rw [hl] at h; simpa using h
  | some c =>
    rw [hl] at h
    simp only at h
    simp [h]

theorem loadArchives_len (d : Dir) (v : String) (m : Archives) (h : loadArchives d v = some m) :
    lenArchives (archiveIndex (some d) v) = m.keys.card := by
  unfold loadArchives at h
  rw [archiveIndex_some]
  cases hl : d.lookup (v ++ ".json") with
  | none =>
    rw [hl] at h
    simp only [Option.some.injEq] at h
    subst h
    simp [lenArchives]
  | some c =>
    rw [hl] at h
    simp only at h
    simp [h, lenArchives]

theorem loadArchives_getD (d : Dir) (v : String) (m : Archives) (h : loadArchives d v = some m) :
    (archiveIndex (some d) v).getD ∅ = m := by
  unfold loadArchives at h
  rw [archiveIndex_some]
  cases hl : d.lookup (v ++ ".json") with
  | none =>
    rw [hl] at h
    simp only [Option.some.injEq] at h
    subst h
    simp
  | some c =>
    rw [hl] at h
    simp only at h
    simp [h]

theorem lookup_uploaded_json (d : Dir) (f pv pa : String) (body : Content)
    (vs : Finset String) (m : Archives) (hf : f ≠ pv ++ ".json") :
    (uploaded d f pv pa body vs m).lookup (pv ++ ".json") =
      some (.json none (some (m.insert pa ⟨f, []⟩))) := by
  unfold uploaded
  rw [Finmap.lookup_insert_of_ne _ (Ne.symm hf), Finmap.lookup_insert_of_ne _ (Ne.symm hf),
    Finmap.lookup_insert]

theorem lookup_uploaded_index (d : Dir) (f pv pa : String) (body : Content)
    (vs : Finset String) (m : Archives) (hf : f ≠ "index.json") (hv : pv ++ ".json" ≠ "index.json") :
    (uploaded d f pv pa body vs m).lookup "index.json" =
      some (.json (some (insert pv vs)) none) := by
  unfold uploaded
  rw [Finmap.lookup_insert_of_ne _ (Ne.symm hf), Finmap.lookup_insert_of_ne _ (Ne.symm hf),
    Finmap.lookup_insert_of_ne _ (Ne.symm hv), Finmap.lookup_insert]

theorem lookup_uploaded_other (d : Dir) (f pv pa : String) (body : Content)
    (vs : Finset String) (m : Archives) (x : String) (hf : x ≠ f) (hv : x ≠ pv ++ ".json")
    (hi : x ≠ "index.json") :
    (uploaded d f pv pa body vs m).lookup x = d.lookup x := by
  unfold uploaded
  rw [Finmap.lookup_insert_of_ne _ hf, Finmap.lookup_insert_of_ne _ hf,
    Finmap.lookup_insert_of_ne _ hv, Finmap.lookup_insert_of_ne _ hi]

theorem uploadStore_noFault (w : Option Nat) (f pv pa : String) (body : Content) (d : Dir) :
    uploadStore noFault w f pv pa body d = ⟨.panicked, some d⟩ ∨
    ∃ vs m, loadVersions d = some vs ∧ loadArchives d pv = some m ∧
      uploadStore noFault w f pv pa body d = ⟨respond w 200, some (uploaded d f pv pa body vs m)⟩ := by
  unfold uploadStore
  cases hv : loadVersions d with
  | none => exact Or.inl rfl
  | some vs =>
    cases ha : loadArchives d pv with
    | none => exact Or.inl rfl
    | some m =>
      right
      exact ⟨vs, m, rfl, rfl, by simp [noFault, Outcome.fails, uploaded, marshalIndex, marshalPackages]⟩

theorem uploadStore_ok (fail : Syscall → Outcome) (w : Option Nat) (f pv pa : String)
    (body : Content) (d : Dir) (hw : respond w 500 ≠ .status 200)
    (h : (uploadStore fail w f pv pa body d).response = .status 200) :
    ∃ vs m, loadVersions d = some vs ∧ loadArchives d pv = some m ∧
      (uploadStore fail w f pv pa body d).fs = some (uploaded d f pv pa body vs m) := by
  unfold uploadStore at h ⊢
  cases hv : loadVersions d with
  | none => rw [hv] at h; simp at h
  | some vs =>
    cases ha : loadArchives d pv with
    | none => rw [hv, ha] at h; simp at h
    | some m =>
      rw [hv, ha] at h
      refine ⟨vs, m, rfl, rfl, ?_⟩
      simp only at h ⊢
      split_ifs at h ⊢ with h1 h2 h3 h4
      · exact absurd h hw
      · exact absurd h hw
      · exact absurd h hw
      · exact absurd h hw
      · simp [uploaded, marshalIndex, marshalPackages]

theorem uploadStore_response_none (fail : Syscall → Outcome) (f pv pa : String) (body : Content)
    (d : Dir) :
    (uploadStore fail none f pv pa body d).response = .panicked ∨
    (uploadStore fail none f pv pa body d).response = .status 500 ∨
    (uploadStore fail none f pv pa body d).response = .status 200 := by
  unfold uploadStore
  cases loadVersions d with
  | none => exact Or.inl rfl
  | some vs =>
    cases loadArchives d pv with
    | none => exact Or.inl rfl
    | some m =>
      right
      simp only
      split_ifs <;> simp [respond]

theorem afterFailedWrite_lookup_ne (o : Outcome) (d : Dir) (name x : String) (hx : x ≠ name) :
    (afterFailedWrite o d name).lookup x = d.lookup x := by
  cases o with
  | torn left => exact Finmap.lookup_insert_of_ne _ hx
  | done => rfl
  | refused => rfl
  | partly gone => rfl

theorem afterFailedWrite_torn (left : Content) (d : Dir) (name : String) :
    (afterFailedWrite (.torn left) d name).lookup name = some left :=
  Finmap.lookup_insert _

theorem afterFailedWrite_not_torn (o : Outcome) (d : Dir) (name : String)
    (ho : ∀ left, o ≠ .torn left) : afterFailedWrite o d name = d := by
  cases o with
  | torn left => exact absurd rfl (ho left)
  | done => rfl
  | refused => rfl
  | partly gone => rfl

theorem Outcome.fails_of_ne_done (o : Outcome) (ho : o ≠ .done) : o.fails = true := by
  cases o with
  | done => exact absurd rfl ho
  | refused => rfl
  | torn left => rfl
  | partly gone => rfl

theorem uploadStore_second_write_fails (fail : Syscall → Outcome) (w : Option Nat)
    (f pv pa : String) (body : Content) (d : Dir)
    (h1 : fail .writeIndex = .done) (h2 : fail .writePackages ≠ .done)
    (hnp : (uploadStore fail w f pv pa body d).response ≠ .panicked) :
    ∃ vs, loadVersions d = some vs ∧
      uploadStore fail w f pv pa body d =
        ⟨respond w 500, some (afterFailedWrite (fail .writePackages)
          (d.insert "index.json" (.json (some (insert pv vs)) none)) (pv ++ ".json"))⟩ := by
  unfold uploadStore at hnp ⊢
  cases hv : loadVersions d with
  | none => rw [hv] at hnp; simp at hnp
  | some vs =>
    cases ha : loadArchives d pv with
    | none => rw [hv, ha] at hnp; simp at hnp
    | some m =>
      refine ⟨vs, rfl, ?_⟩
      simp [h1, Outcome.fails_of_ne_done _ h2, Outcome.fails, marshalIndex]

theorem uploadStore_twoTier (w : Option Nat) (f pv pa : String) (body : Content) (d : Dir)
    (r : List Char) (hf : f.data = "terraform-provider-".data ++ r) (hpv : isVersion pv)
    (h : TwoTier (some d)) : TwoTier (uploadStore noFault w f pv pa body d).fs := by
  rcases uploadStore_noFault w f pv pa body d with hp | ⟨vs, m, hvs, hm, hup⟩
  · rw [hp]; exact h
  · rw [hup]
    intro v hv
    have hfi : f ≠ "index.json" := archive_name_ne_index f r hf
    have hl : listedVersions (some (uploaded d f pv pa body vs m)) = insert pv vs := by
      rw [listedVersions_some, lookup_uploaded_index _ _ _ _ _ _ _ hfi
        (json_ne_index_of_isVersion pv hpv)]
      simp [unmarshalIndex]
    unfold TwoTierAt
    rw [hl]
    by_cases hvp : v = pv
    · subst hvp
      rw [archiveIndex_some, lookup_uploaded_json _ _ _ _ _ _ _
        (archive_name_ne_json f r hf v hv)]
      simp only [Option.some_bind, unmarshalPackages]
      simp [lenArchives_insert_pos]
    · have hother : archiveIndex (some (uploaded d f pv pa body vs m)) v
          = archiveIndex (some d) v := by
        rw [archiveIndex_some, archiveIndex_some, lookup_uploaded_other _ _ _ _ _ _ _ _
          (Ne.symm (archive_name_ne_json f r hf v hv))
          (fun e => hvp ((json_name_inj v pv).mp e)) (json_ne_index_of_isVersion v hv)]
      rw [hother, Finset.mem_insert, ← loadVersions_listed d vs hvs]
      have := h v hv
      unfold TwoTierAt at this
      rw [← this]
      simp [hvp]

theorem upload_twoTier (type f : String) (body : Content) (fs : Option Dir)
    (h : TwoTier fs) : TwoTier (uploadProvider noFault type f body fs).fs := by
  unfold uploadProvider
  rcases FindStringSubmatch_uploadReg f with h0 | ⟨w, n, v, a, r, hm, hf, hv⟩
  · simp only [h0, List.getElem?_nil]
    exact h
  · simp only [hm, List.getElem?_cons_succ, List.getElem?_cons_zero]
    by_cases hname : n = type
    · simp only [ne_eq, hname, not_true_eq_false, if_false]
      cases fs with
      | none =>
        simp only [noFault, Outcome.fails, Bool.false_eq_true, if_false]
        exact uploadStore_twoTier _ f v a body ∅ r hf hv TwoTier_empty
      | some d => exact uploadStore_twoTier _ f v a body d r hf hv h
    · simp only [ne_eq, hname, not_false_eq_true, if_true]
      exact h

/-! ## The delete handler -/

/-- The first block: either nothing is touched and `packages.Archives` is what
the document holds, or the key is erased and the document removed or rewritten. -/
theorem deletePackages_noFault (version arch : String) (fs : Option Dir) :
    (deletePackages noFault version arch fs = .ok (archiveIndex fs version, "", fs) ∧
      ∀ m, archiveIndex fs version = some m → m.lookup arch = none) ∨
    ∃ d m a, fs = some d ∧ archiveIndex fs version = some m ∧ m.lookup arch = some a ∧
      ((m.erase arch).keys.card = 0 ∧
        deletePackages noFault version arch fs
          = .ok (some (m.erase arch), a.URL, some (d.erase (version ++ ".json"))) ∨
       (m.erase arch).keys.card ≠ 0 ∧
        deletePackages noFault version arch fs
          = .ok (some (m.erase arch), a.URL,
              some (d.insert (version ++ ".json") (.json none (some (m.erase arch)))))) := by
  cases fs with
  | none => left; simp [deletePackages, archiveIndex_none]
  | some d =>
    rw [archiveIndex_some]
    unfold deletePackages
    cases hl : d.lookup (version ++ ".json") with
    | none => left; simp [hl]
    | some c =>
      cases hc : (unmarshalPackages c).Archives with
      | none => left; simp [hl, hc]
      | some m =>
        cases ha : m.lookup arch with
        | none => left; simp [hl, hc, ha]
        | some a =>
          right
          refine ⟨d, m, a, rfl, by simp [hl, hc], ha, ?_⟩
          simp only [hl, hc, ha]
          by_cases hcard : (m.erase arch).keys.card = 0
          · left
            refine ⟨hcard, ?_⟩
            rw [if_pos hcard]
            simp [noFault, Outcome.fails]
          · right
            refine ⟨hcard, ?_⟩
            rw [if_neg hcard]
            simp [noFault, Outcome.fails, marshalPackages]

theorem deletePackages_missing (fail : Syscall → Outcome) (version arch : String) (fs : Option Dir)
    (h : ∀ m, archiveIndex fs version = some m → m.lookup arch = none) :
    deletePackages fail version arch fs = .ok (archiveIndex fs version, "", fs) := by
  cases fs with
  | none => simp [deletePackages, archiveIndex_none]
  | some d =>
    rw [archiveIndex_some] at h ⊢
    unfold deletePackages
    cases hl : d.lookup (version ++ ".json") with
    | none => simp [hl]
    | some c =>
      cases hc : (unmarshalPackages c).Archives with
      | none => simp [hl, hc]
      | some m =>
        have := h m (by simp [hl, hc])
        simp [hl, hc, this]

theorem deleteIndex_skip (fail : Syscall → Outcome) (version : String) (archives : Option Archives)
    (fs : Option Dir) (hlen : lenArchives archives ≠ 0) :
    deleteIndex fail version archives fs = .ok fs := by
  unfold deleteIndex
  rw [if_neg hlen]

theorem deleteIndex_unlisted (fail : Syscall → Outcome) (version : String)
    (archives : Option Archives) (fs : Option Dir) (h : version ∉ listedVersions fs) :
    deleteIndex fail version archives fs = .ok fs := by
  unfold deleteIndex
  by_cases hlen : lenArchives archives = 0
  · rw [if_pos hlen]
    cases fs with
    | none => rfl
    | some d =>
      rw [listedVersions_some] at h
      cases hl : d.lookup "index.json" with
      | none => simp only [hl]
      | some c =>
        cases hc : (unmarshalIndex c).Versions with
        | none => simp only [hl, hc]
        | some vs =>
          have hmem : version ∉ vs := by simpa [hl, hc] using h
          simp only [hl, hc]
          rw [if_neg hmem]
  · rw [if_neg hlen]

/-- The second block without faults, when the version has no archive left:
the version leaves the listed versions and nothing but `index.json` changes. -/
theorem deleteIndex_noFault (version : String) (archives : Option Archives) (fs : Option Dir)
    (hlen : lenArchives archives = 0) :
    ∃ fs2, deleteIndex noFault version archives fs = .ok fs2 ∧
      listedVersions fs2 = (listedVersions fs).erase version ∧
      (listedVersions fs = {version} → ReadFile fs2 "index.json" = none) ∧
      (∀ x, x ≠ "index.json" → ReadFile fs2 x = ReadFile fs x) ∧
      providerArchives fs2 = providerArchives fs := by
  by_cases hmem : version ∈ listedVersions fs
  · cases fs with
    | none => simp [listedVersions_none] at hmem
    | some d =>
      rw [listedVersions_some] at hmem
      unfold deleteIndex
      rw [if_pos hlen]
      cases hl : d.lookup "index.json" with
      | none => simp [hl] at hmem
      | some c =>
        cases hc : (unmarshalIndex c).Versions with
        | none => simp [hl, hc] at hmem
        | some vs =>
          have hlist : listedVersions (some d) = vs := by simp [listedVersions_some, hl, hc]
          have hmem1 : version ∈ vs := by simpa [hl, hc] using hmem
          simp only [hl, hc]
          rw [if_pos hmem1, hlist]
          by_cases hcard : (vs.erase version).card = 0
          · rw [if_pos hcard]
            refine ⟨some (d.erase "index.json"), by simp [noFault, Outcome.fails], ?_, ?_, ?_, ?_⟩
            · rw [listedVersions_erase_index]
              exact (Finset.card_eq_zero.mp hcard).symm
            · intro _
              simp [ReadFile, Finmap.lookup_erase]
            · intro x hx
              simp [ReadFile, Finmap.lookup_erase_ne hx]
            · exact providerArchives_erase d _ index_not_archive
          · rw [if_neg hcard]
            refine ⟨some (d.insert "index.json" (.json (some (vs.erase version)) none)),
              by simp [noFault, Outcome.fails, marshalIndex], ?_, ?_, ?_, ?_⟩
            · exact listedVersions_insert_index d _ _
            · intro hone
              rw [hone] at hcard
              simp at hcard
            · intro x hx
              simp [ReadFile, Finmap.lookup_insert_of_ne _ hx]
            · exact providerArchives_insert d _ _ index_not_archive
  · refine ⟨fs, deleteIndex_unlisted noFault version archives fs hmem, ?_, ?_, fun _ _ => rfl, rfl⟩
    · exact (Finset.erase_eq_of_not_mem hmem).symm
    · intro hone
      rw [hone] at hmem
      simp at hmem

/-- The second block when the version has no archive left. -/
theorem deleteIndex_twoTier (version : String) (archives : Option Archives) (fs : Option Dir)
    (hlen : lenArchives archives = 0)
    (hother : ∀ v, isVersion v → v ≠ version → TwoTierAt fs v)
    (hself : lenArchives (archiveIndex fs version) = 0) :
    ∃ fs2, deleteIndex noFault version archives fs = .ok fs2 ∧ TwoTier fs2 := by
  unfold deleteIndex
  rw [if_pos hlen]
  have hkeep : (version ∉ listedVersions fs) → TwoTier fs := by
    intro hnot v hv
    by_cases hvv : v = version
    · subst hvv
      unfold TwoTierAt
      rw [hself]
      simp [hnot]
    · exact hother v hv hvv
  cases fs with
  | none => exact ⟨none, rfl, TwoTier_none⟩
  | some d =>
    cases hl : d.lookup "index.json" with
    | none =>
      refine ⟨some d, by simp only [hl], hkeep ?_⟩
      simp [listedVersions_some, hl]
    | some c =>
      cases hc : (unmarshalIndex c).Versions with
      | none =>
        refine ⟨some d, by simp only [hl, hc], hkeep ?_⟩
        simp [listedVersions_some, hl, hc]
      | some vs =>
        have hlist : listedVersions (some d) = vs := by simp [listedVersions_some, hl, hc]
        by_cases hmem : version ∈ vs
        · have hafter : ∀ fs2 : Option Dir, listedVersions fs2 = vs.erase version →
              (∀ v, isVersion v → archiveIndex fs2 v = archiveIndex (some d) v) → TwoTier fs2 := by
            intro fs2 hl2 ha2 v hv
            unfold TwoTierAt
            rw [hl2, ha2 v hv]
            by_cases hvv : v = version
            · subst hvv
              rw [hself]
              simp
            · have := hother v hv hvv
              unfold TwoTierAt at this
              rw [← this, hlist]
              simp [hvv]
          by_cases hcard : (vs.erase version).card = 0
          · refine ⟨some (d.erase "index.json"), ?_, ?_⟩
            · simp only [hl, hc]
              rw [if_pos hmem, if_pos hcard]
              simp [noFault, Outcome.fails]
            apply hafter
            · rw [listedVersions_erase_index]
              exact (Finset.card_eq_zero.mp hcard).symm
            · intro v hv
              exact archiveIndex_erase_ne d _ v (Ne.symm (json_ne_index_of_isVersion v hv))
          · refine ⟨some (d.insert "index.json" (.json (some (vs.erase version)) none)), ?_, ?_⟩
            · simp only [hl, hc]
              rw [if_pos hmem, if_neg hcard]
              simp [noFault, Outcome.fails, marshalIndex]
            apply hafter
            · exact listedVersions_insert_index d _ _
            · intro v hv
              exact archiveIndex_insert_ne d _ v _ (Ne.symm (json_ne_index_of_isVersion v hv))
        · refine ⟨some d, by simp only [hl, hc]; rw [if_neg hmem], hkeep ?_⟩
          rw [hlist]; exact hmem

theorem deleteArchive_twoTier (f : String) (fs : Option Dir) (h : TwoTier fs) :
    TwoTier (deleteArchive noFault f fs).fs := by
  unfold deleteArchive
  by_cases hmem : f ∈ providerArchives fs
  · rw [if_pos hmem]
    by_cases hone : (providerArchives fs).card = 1
    · rw [if_pos hone]
      simp only [noFault, Outcome.fails, Bool.false_eq_true, if_false]
      exact TwoTier_none
    · rw [if_neg hone]
      simp only [noFault, Outcome.fails, Bool.false_eq_true, if_false]
      cases fs with
      | none => exact TwoTier_none
      | some d =>
        simp only [providerArchives, Finset.mem_filter] at hmem
        obtain ⟨r, hr⟩ := MatchString_scanReg f hmem.2
        intro v hv
        simp only [Option.map_some']
        rw [TwoTierAt_congr (some d) _ v
          (listedVersions_erase_ne d f (archive_name_ne_index f r hr))
          (archiveIndex_erase_ne d f v (archive_name_ne_json f r hr v hv))]
        exact h v hv
  · rw [if_neg hmem]
    exact h

theorem delete_twoTier (version arch : String) (fs : Option Dir) (hversion : version ≠ "index")
    (h : TwoTier fs) : TwoTier (deleteProvider noFault version arch fs).fs := by
  have hvi : version ++ ".json" ≠ "index.json" := fun e => hversion ((json_name_eq_index _).mp e)
  unfold deleteProvider
  rcases deletePackages_noFault version arch fs with ⟨hd, hlook⟩ | ⟨d, m, a, hfs, hm, ha, hcase⟩
  · rw [hd]
    simp only
    by_cases hlen : lenArchives (archiveIndex fs version) = 0
    · obtain ⟨fs2, h2, ht⟩ := deleteIndex_twoTier version _ fs hlen (fun v hv _ => h v hv) hlen
      rw [h2]
      exact deleteArchive_twoTier _ fs2 ht
    · rw [deleteIndex_skip _ _ _ _ hlen]
      exact deleteArchive_twoTier _ fs h
  · subst hfs
    rcases hcase with ⟨hcard, hd⟩ | ⟨hcard, hd⟩
    · rw [hd]
      simp only
      obtain ⟨fs2, h2, ht⟩ := deleteIndex_twoTier version (some (m.erase arch))
        (some (d.erase (version ++ ".json"))) hcard
        (fun v hv hvv => (TwoTierAt_congr (some d) _ v (listedVersions_erase_ne d _ hvi)
          (archiveIndex_erase_ne d _ v (fun e => hvv ((json_name_inj _ _).mp e.symm)))).mpr
            (h v hv))
        (by rw [archiveIndex_erase_self]; rfl)
      rw [h2]
      exact deleteArchive_twoTier _ fs2 ht
    · rw [hd]
      simp only
      rw [deleteIndex_skip _ _ _ _ (show lenArchives (some (m.erase arch)) ≠ 0 from hcard)]
      apply deleteArchive_twoTier
      intro v hv
      by_cases hvv : v = version
      · subst hvv
        unfold TwoTierAt
        rw [listedVersions_insert_ne d _ _ hvi, archiveIndex_insert_self]
        have := h v hv
        unfold TwoTierAt at this
        rw [this, hm]
        have hpos : 0 < lenArchives (some m) := by
          simp only [lenArchives]
          exact Finset.card_pos.mpr ⟨arch, Finmap.mem_keys.mpr (Finmap.mem_of_lookup_eq_some ha)⟩
        simp only [hpos, true_iff]
        exact Nat.pos_of_ne_zero hcard
      · rw [TwoTierAt_congr (some d) _ v (listedVersions_insert_ne d _ _ hvi)
          (archiveIndex_insert_ne d _ v _ (fun e => hvv ((json_name_inj _ _).mp e.symm)))]
        exact h v hv

/-- Where the fall-through is harmless: when `{version}.json` is absent or lacks
the key `arch`, and `version` is not listed in `index.json` unless
`{version}.json` has a non-empty archives map, delete answers 404 and leaves the
directory as it was, whatever system call would fail. -/
theorem delete_missing_leaves_storage (fail : Syscall → Outcome) (version arch : String)
    (fs : Option Dir)
    (hmissing : ∀ m, archiveIndex fs version = some m → m.lookup arch = none)
    (hlisted : version ∈ listedVersions fs → 0 < lenArchives (archiveIndex fs version)) :
    deleteProvider fail version arch fs = ⟨.status 404, fs⟩ := by
  unfold deleteProvider
  rw [deletePackages_missing fail version arch fs hmissing]
  simp only
  have hidx : deleteIndex fail version (archiveIndex fs version) fs = .ok fs := by
    by_cases hlen : lenArchives (archiveIndex fs version) = 0
    · apply deleteIndex_unlisted
      intro hmem
      have := hlisted hmem
      omega
    · exact deleteIndex_skip fail version _ fs hlen
  rw [hidx]
  simp only
  unfold deleteArchive
  rw [if_neg (empty_not_archive fs)]

/-! ## The claims -/

/-- C1: when an upload of `f` answers 200 and the pattern captures `version` and
`arch`, the document `{version}.json` afterwards is the previous archives map
(empty if there was no document) with `arch` set to the entry with url `f`: `arch`
maps to `f`, it is the key of exactly one entry, and every other key is as before. -/
theorem upload_sets_archive_entry (fail : Syscall → Outcome) (type f : String) (body : Content)
    (fs : Option Dir) (whole name version arch : String)
    (hparse : FindStringSubmatch uploadReg f = [whole, name, version, arch])
    (hok : (uploadProvider fail type f body fs).response = .status 200) :
    ∃ after : Archives,
      ReadFile (uploadProvider fail type f body fs).fs (version ++ ".json")
        = some (marshalPackages ⟨some after⟩) ∧
      after = ((archiveIndex fs version).getD ∅).insert arch ⟨f, []⟩ ∧
      after.lookup arch = some ⟨f, []⟩ ∧
      Multiset.count arch (after.entries.map Sigma.fst) = 1 ∧
      ∀ a, a ≠ arch → after.lookup a = ((archiveIndex fs version).getD ∅).lookup a := by
  obtain ⟨⟨r, hf⟩, hv⟩ := FindStringSubmatch_uploadReg_eq f whole name version arch hparse
  have hne : f ≠ version ++ ".json" := archive_name_ne_json f r hf version hv
  refine ⟨((archiveIndex fs version).getD ∅).insert arch ⟨f, []⟩, ?_, rfl,
    Finmap.lookup_insert _, ?_, fun a ha => Finmap.lookup_insert_of_ne _ ha⟩
  · unfold uploadProvider at hok ⊢
    simp only [hparse, List.getElem?_cons_succ, List.getElem?_cons_zero] at hok ⊢
    by_cases hname : name = type
    · simp only [ne_eq, hname, not_true_eq_false, if_false] at hok ⊢
      have hw : respond (if Ext f ≠ ".zip" then some 415 else none) 500 ≠ .status 200 := by
        split_ifs <;> simp [respond]
      cases fs with
      | none =>
        simp only at hok ⊢
        by_cases hmk : (fail .mkdirAll).fails = true
        · simp only [hmk, if_true] at hok
          exact absurd hok hw
        · simp only [hmk, Bool.false_eq_true, if_false] at hok ⊢
          obtain ⟨vs, m, -, hm, hfs⟩ := uploadStore_ok fail _ f version arch body ∅ hw hok
          have hm0 : m = ∅ := by
            simpa [loadArchives, Finmap.lookup_empty] using hm.symm
          rw [hfs, hm0]
          simp [ReadFile, lookup_uploaded_json _ _ _ _ _ _ _ hne, marshalPackages,
            archiveIndex_none]
      | some d =>
        obtain ⟨vs, m, -, hm, hfs⟩ := uploadStore_ok fail _ f version arch body d hw hok
        rw [hfs, loadArchives_getD d version m hm]
        simp [ReadFile, lookup_uploaded_json _ _ _ _ _ _ _ hne, marshalPackages]
    · simp [hname] at hok
  · have hmem : arch ∈ (((archiveIndex fs version).getD ∅).insert arch ⟨f, []⟩).keys :=
      Finmap.mem_keys.mpr (Finmap.mem_insert.mpr (Or.inl rfl))
    have h1 : Multiset.count arch
        (Finmap.keys (((archiveIndex fs version).getD ∅).insert arch ⟨f, []⟩)).val = 1 :=
      Multiset.count_eq_one_of_mem (Finset.nodup _) (Finset.mem_def.mp hmem)
    exact h1

/-- C1, at a concrete input: a second archive of version 1.2.3 is uploaded into
the directory that already holds the first. -/
theorem upload_sets_archive_entry_witness :
    (FindStringSubmatch uploadReg archiveDarwin
        = ["terraform-provider-foo_1.2.3_darwin_arm64", "foo", "1.2.3", "darwin_arm64"] ∧
      (uploadProvider noFault "foo" archiveDarwin zipBytes (some oneArchiveDir)).response
        = .status 200) ∧
    ∃ after : Archives,
      ReadFile (uploadProvider noFault "foo" archiveDarwin zipBytes (some oneArchiveDir)).fs
          ("1.2.3" ++ ".json") = some (marshalPackages ⟨some after⟩) ∧
      after = ((archiveIndex (some oneArchiveDir) "1.2.3").getD ∅).insert "darwin_arm64"
        ⟨archiveDarwin, []⟩ ∧
      after.lookup "darwin_arm64" = some ⟨archiveDarwin, []⟩ ∧
      Multiset.count "darwin_arm64" (after.entries.map Sigma.fst) = 1 ∧
      ∀ a, a ≠ "darwin_arm64" →
        after.lookup a = ((archiveIndex (some oneArchiveDir) "1.2.3").getD ∅).lookup a :=
  ⟨by decide, upload_sets_archive_entry noFault "foo" archiveDarwin zipBytes (some oneArchiveDir)
    "terraform-provider-foo_1.2.3_darwin_arm64" "foo" "1.2.3" "darwin_arm64"
    (by decide) (by decide)⟩

/-- C2, amended: the two-tier invariant over the versions made of digits and
dots is preserved by every upload and by every delete whose version is not the
string `index`, when no system call fails, whatever the handler answers. -/
theorem two_tier_preserved (fs : Option Dir) (h : TwoTier fs) :
    (∀ type f body, TwoTier (uploadProvider noFault type f body fs).fs) ∧
    (∀ version arch, version ≠ "index" →
      TwoTier (deleteProvider noFault version arch fs).fs) :=
  ⟨fun type f body => upload_twoTier type f body fs h,
   fun version arch hversion => delete_twoTier version arch fs hversion h⟩

/-- C2, amended, at a concrete state: the directory after one upload. -/
theorem two_tier_preserved_witness :
    TwoTier (some oneArchiveDir) ∧
    ((∀ type f body, TwoTier (uploadProvider noFault type f body (some oneArchiveDir)).fs) ∧
     (∀ version arch, version ≠ "index" →
      TwoTier (deleteProvider noFault version arch (some oneArchiveDir)).fs)) :=
  have e : (uploadProvider noFault "foo" archiveZip zipBytes none).fs = some oneArchiveDir := by
    decide
  have h : TwoTier (some oneArchiveDir) :=
    e ▸ upload_twoTier "foo" archiveZip zipBytes none TwoTier_none
  ⟨h, two_tier_preserved (some oneArchiveDir) h⟩

/-- C2 as stated fails: in a directory that satisfies the invariant at every
string, a delete with version `index` reads `index.json` as the archives document,
removes it and answers 404; version 1.0 then has a non-empty document and is not
listed.  Read over all strings instead of versions, the invariant is also lost
by the upload of a file whose name ends in `.json`. -/
theorem two_tier_broken_by_delete_of_index :
    ((∀ v, TwoTierAt (some aliasDir) v) ∧
      deleteProvider noFault "index" "a" (some aliasDir)
        = ⟨.status 404, some (aliasDir.erase "index.json")⟩ ∧
      isVersion "1.0" ∧
      ¬ TwoTierAt (deleteProvider noFault "index" "a" (some aliasDir)).fs "1.0") ∧
    ((∀ v, TwoTierAt none v) ∧
      (uploadProvider noFault "foo" archiveJson jsonBytes none).response = .status 415 ∧
      ¬ TwoTierAt (uploadProvider noFault "foo" archiveJson jsonBytes none).fs
        "terraform-provider-foo_1.0_x") := by
  refine ⟨⟨?_, by decide, by decide, by decide⟩, ⟨?_, by decide, by decide⟩⟩
  · intro v
    by_cases h1 : v = "index"
    · subst h1; decide
    · by_cases h2 : v = "1.0"
      · subst h2; decide
      · have hl : listedVersions (some aliasDir) = {"index", "1.0"} := by decide
        have hi : "index.json" ≠ v ++ ".json" := fun e => h1 ((json_name_eq_index v).mp e.symm)
        have hj : "1.0.json" ≠ v ++ ".json" := by
          intro e
          have e1 : ("1.0.json" : String) = "1.0" ++ ".json" := by decide
          rw [e1] at e
          exact h2 ((json_name_inj _ _).mp e.symm)
        have ha : archiveIndex (some aliasDir) v = none := by
          rw [archiveIndex_some]
          unfold aliasDir
          rw [Finmap.lookup_insert_of_ne _ (Ne.symm hj),
            Finmap.lookup_insert_of_ne _ (Ne.symm hi), Finmap.lookup_empty]
          rfl
        unfold TwoTierAt
        rw [hl, ha]
        simp [lenArchives, h1, h2]
  · intro v
    simp [TwoTierAt, listedVersions_none, archiveIndex_none, lenArchives]

/-- C3: `index.json` lists 1.2.3 and `1.2.3.json` is absent (the directory an
upload leaves when its second write is refused).  Delete of (1.2.3, linux_amd64)
deletes nothing in the first block, yet the second block, guarded by
`len(packages.Archives) == 0` alone, removes `index.json` before the 404. -/
theorem delete_missing_rewrites_index :
    (uploadProvider failWritePackages "foo" archiveZip zipBytes none).fs = some danglingDir ∧
    ReadFile (some danglingDir) "1.2.3.json" = none ∧
    (deleteProvider noFault "1.2.3" "linux_amd64" (some danglingDir)).response = .status 404 ∧
    ReadFile (some danglingDir) "index.json" = some (.json (some {"1.2.3"}) none) ∧
    ReadFile (deleteProvider noFault "1.2.3" "linux_amd64" (some danglingDir)).fs "index.json"
      = none := by
  decide

/-- C4: the file name `foo.zip` does not match the pattern, `FindStringSubmatch`
returns the nil slice and indexing it panics: no 400 is written. -/
theorem upload_malformed_filename_panics (fail : Syscall → Outcome) (type : String)
    (body : Content) (fs : Option Dir) :
    FindStringSubmatch uploadReg "foo.zip" = [] ∧
    uploadProvider fail type "foo.zip" body fs = ⟨.panicked, fs⟩ := by
  have h : FindStringSubmatch uploadReg "foo.zip" = [] := by decide
  refine ⟨h, ?_⟩
  unfold uploadProvider
  simp only [h, List.getElem?_nil]

/-- C5: a `.tar` archive whose provider name matches gets the status 415, and the
handler goes on: the directory is created, both documents are written and the
archive is stored. -/
theorem upload_non_zip_still_stores :
    Ext archiveTar = ".tar" ∧
    uploadProvider noFault "foo" archiveTar zipBytes none =
      ⟨.status 415, some (uploaded ∅ archiveTar "1.2.3" "linux_amd64" zipBytes ∅ ∅)⟩ ∧
    ReadFile (uploadProvider noFault "foo" archiveTar zipBytes none).fs "index.json"
      = some (.json (some {"1.2.3"}) none) ∧
    ReadFile (uploadProvider noFault "foo" archiveTar zipBytes none).fs "1.2.3.json"
      = some (.json none (some ((∅ : Archives).insert "linux_amd64" ⟨archiveTar, []⟩))) ∧
    ReadFile (uploadProvider noFault "foo" archiveTar zipBytes none).fs archiveTar
      = some zipBytes := by
  decide

/-- C6, amended: for a provider name and an arch in `[A-Za-z0-9_]+` and a version
of digits and dots with at least one dot, the file name
`terraform-provider-<name>_<version>_<arch>.zip` parses to exactly that name,
version and arch; uploaded to the type `name` it is never answered 400 or 415, and
into an absent directory without faults it answers 200 and stores the entry;
uploaded to any other type it answers 400 and touches nothing. -/
theorem upload_parses_dotted_version (name version arch : String) (hn : isName name)
    (hv : isVersion version)
    (hdot : '.' ∈ version.data) (ha : isName arch) :
    FindStringSubmatch uploadReg (archiveName name version arch)
      = ["terraform-provider-" ++ name ++ "_" ++ version ++ "_" ++ arch, name, version, arch] ∧
    (∀ fail body fs,
      (uploadProvider fail name (archiveName name version arch) body fs).response ≠ .status 400 ∧
      (uploadProvider fail name (archiveName name version arch) body fs).response ≠ .status 415) ∧
    (∀ body, uploadProvider noFault name (archiveName name version arch) body none
      = ⟨.status 200, some (uploaded ∅ (archiveName name version arch) version arch body ∅ ∅)⟩) ∧
    (∀ fail type body fs, type ≠ name →
      uploadProvider fail type (archiveName name version arch) body fs = ⟨.status 400, fs⟩) := by
  have hparse := FindStringSubmatch_archiveName name version arch hn hv hdot ha
  have hext : Ext (archiveName name version arch) = ".zip" := Ext_zip _
  refine ⟨hparse, ?_, ?_, ?_⟩
  · intro fail body fs
    unfold uploadProvider
    simp only [hparse, List.getElem?_cons_succ, List.getElem?_cons_zero, ne_eq,
      not_true_eq_false, if_false, hext]
    have key : ∀ d, (uploadStore fail none (archiveName name version arch) version arch body
          d).response ≠ .status 400 ∧
        (uploadStore fail none (archiveName name version arch) version arch body
          d).response ≠ .status 415 := by
      intro d
      rcases uploadStore_response_none fail (archiveName name version arch) version arch body d
        with h | h | h <;> rw [h] <;> simp
    cases fs with
    | none =>
      simp only
      split_ifs
      · simp [respond]
      · exact key ∅
    | some d => exact key d
  · intro body
    unfold uploadProvider
    simp only [hparse, List.getElem?_cons_succ, List.getElem?_cons_zero, ne_eq,
      not_true_eq_false, if_false, hext, noFault, Outcome.fails, Bool.false_eq_true]
    rcases uploadStore_noFault none (archiveName name version arch) version arch body ∅
      with h | ⟨vs, m, hvs, hm, h⟩
    · have : loadVersions (∅ : Dir) = some ∅ := by simp [loadVersions, Finmap.lookup_empty]
      have h2 : loadArchives (∅ : Dir) version = some ∅ := by
        simp [loadArchives, Finmap.lookup_empty]
      unfold uploadStore at h
      rw [this, h2] at h
      simp [noFault, Outcome.fails, respond] at h
    · have hvs0 : vs = ∅ := by simpa [loadVersions, Finmap.lookup_empty] using hvs.symm
      have hm0 : m = ∅ := by simpa [loadArchives, Finmap.lookup_empty] using hm.symm
      rw [h, hvs0, hm0]
      rfl
  · intro fail type body fs htype
    unfold uploadProvider
    simp only [hparse, List.getElem?_cons_succ, List.getElem?_cons_zero]
    rw [if_pos (Ne.symm htype)]

/-- C6, amended, at the input of the specification:
`terraform-provider-foo_1.2.3_linux_amd64.zip`. -/
theorem upload_parses_dotted_version_witness :
    (isName "foo" ∧ isVersion "1.2.3" ∧ '.' ∈ "1.2.3".data ∧ isName "linux_amd64") ∧
    (FindStringSubmatch uploadReg (archiveName "foo" "1.2.3" "linux_amd64")
      = ["terraform-provider-" ++ "foo" ++ "_" ++ "1.2.3" ++ "_" ++ "linux_amd64",
          "foo", "1.2.3", "linux_amd64"] ∧
    (∀ fail body fs,
      (uploadProvider fail "foo" (archiveName "foo" "1.2.3" "linux_amd64") body fs).response
        ≠ .status 400 ∧
      (uploadProvider fail "foo" (archiveName "foo" "1.2.3" "linux_amd64") body fs).response
        ≠ .status 415) ∧
    (∀ body, uploadProvider noFault "foo" (archiveName "foo" "1.2.3" "linux_amd64") body none
      = ⟨.status 200, some (uploaded ∅ (archiveName "foo" "1.2.3" "linux_amd64") "1.2.3"
          "linux_amd64" body ∅ ∅)⟩) ∧
    (∀ fail type body fs, type ≠ "foo" →
      uploadProvider fail type (archiveName "foo" "1.2.3" "linux_amd64") body fs
        = ⟨.status 400, fs⟩)) :=
  ⟨by decide, upload_parses_dotted_version "foo" "1.2.3" "linux_amd64" (by decide) (by decide)
    (by decide) (by decide)⟩

/-- C6 as stated fails: for name `a`, version `1`, arch `2_b` the greedy first
group captures `a_1`, so the upload to type `a` answers 400 and the upload to type
`a_1` is accepted. -/
theorem upload_misparses_undotted_version :
    isName "a" ∧ isVersion "1" ∧ isName "2_b" ∧
    archiveName "a" "1" "2_b" = "terraform-provider-a_1_2_b.zip" ∧
    FindStringSubmatch uploadReg (archiveName "a" "1" "2_b")
      = ["terraform-provider-a_1_2_b", "a_1", "2", "b"] ∧
    uploadProvider noFault "a" (archiveName "a" "1" "2_b") zipBytes none
      = ⟨.status 400, none⟩ ∧
    (uploadProvider noFault "a_1" (archiveName "a" "1" "2_b") zipBytes none).response
      = .status 200 := by
  decide

/-- C7: the accepted upload of `terraform-provider-foo_1.2.3_linux-amd64.zip`
into an absent directory parses (1.2.3, linux); the scan of the following delete
does not recognise the file name, the delete answers 404 and the directory stays,
with the archive in it. -/
theorem upload_then_delete_keeps_archive :
    uploadProvider noFault "foo" archiveHyphen zipBytes none =
      ⟨.status 200, some (uploaded ∅ archiveHyphen "1.2.3" "linux" zipBytes ∅ ∅)⟩ ∧
    FindStringSubmatch uploadReg archiveHyphen
      = ["terraform-provider-foo_1.2.3_linux", "foo", "1.2.3", "linux"] ∧
    MatchString scanReg archiveHyphen = false ∧
    deleteProvider noFault "1.2.3" "linux"
        (uploadProvider noFault "foo" archiveHyphen zipBytes none).fs =
      ⟨.status 404, some ((∅ : Dir).insert archiveHyphen zipBytes)⟩ := by
  decide

/-- C8, amended: `index.json` is written before `{version}.json`.  When the second
write fails (and the handler did not panic on a nil map), the upload does not
answer 200 and `index.json` lists the uploaded version next to the versions listed
before; `{version}.json` holds what the failed write left in it when the file was
already truncated, and else is what it was before the upload. -/
theorem upload_writes_index_first (fail : Syscall → Outcome) (type f : String) (body : Content)
    (fs : Option Dir) (whole name version arch : String)
    (hparse : FindStringSubmatch uploadReg f = [whole, name, version, arch])
    (hname : name = type)
    (hmkdir : fail .mkdirAll = .done) (hfirst : fail .writeIndex = .done)
    (hsecond : fail .writePackages ≠ .done)
    (hnp : (uploadProvider fail type f body fs).response ≠ .panicked) :
    (uploadProvider fail type f body fs).response ≠ .status 200 ∧
    listedVersions (uploadProvider fail type f body fs).fs
      = insert version (listedVersions fs) ∧
    (∀ left, fail .writePackages = .torn left →
      ReadFile (uploadProvider fail type f body fs).fs (version ++ ".json") = some left) ∧
    ((∀ left, fail .writePackages ≠ .torn left) →
      ReadFile (uploadProvider fail type f body fs).fs (version ++ ".json")
        = ReadFile fs (version ++ ".json")) := by
  obtain ⟨-, hv⟩ := FindStringSubmatch_uploadReg_eq f whole name version arch hparse
  have hvi : version ++ ".json" ≠ "index.json" := json_ne_index_of_isVersion version hv
  have hw : respond (if Ext f ≠ ".zip" then some 415 else none) 500 ≠ .status 200 := by
    split_ifs <;> simp [respond]
  have key : ∀ d : Dir, (fs = some d ∨ (fs = none ∧ d = ∅)) →
      (uploadStore fail (if Ext f ≠ ".zip" then some 415 else none) f version arch body
        d).response ≠ .panicked →
      (uploadStore fail (if Ext f ≠ ".zip" then some 415 else none) f version arch body
        d).response ≠ .status 200 ∧
      listedVersions (uploadStore fail (if Ext f ≠ ".zip" then some 415 else none) f version
        arch body d).fs = insert version (listedVersions fs) ∧
      (∀ left, fail .writePackages = .torn left →
        ReadFile (uploadStore fail (if Ext f ≠ ".zip" then some 415 else none) f version arch
          body d).fs (version ++ ".json") = some left) ∧
      ((∀ left, fail .writePackages ≠ .torn left) →
        ReadFile (uploadStore fail (if Ext f ≠ ".zip" then some 415 else none) f version arch
          body d).fs (version ++ ".json") = ReadFile fs (version ++ ".json")) := by
    intro d hd hnp1
    obtain ⟨vs, hvs, hres⟩ :=
      uploadStore_second_write_fails fail _ f version arch body d hfirst hsecond hnp1
    rw [hres]
    have hprev : ReadFile fs (version ++ ".json") = d.lookup (version ++ ".json") := by
      rcases hd with hd | ⟨hd, hd0⟩
      · rw [hd]; rfl
      · rw [hd, hd0]; simp [ReadFile, Finmap.lookup_empty]
    have hlist : listedVersions fs = listedVersions (some d) := by
      rcases hd with hd | ⟨hd, hd0⟩
      · rw [hd]
      · rw [hd, hd0]; rfl
    refine ⟨hw, ?_, ?_, ?_⟩
    · rw [listedVersions_some, afterFailedWrite_lookup_ne _ _ _ _ (Ne.symm hvi),
        Finmap.lookup_insert, hlist, ← loadVersions_listed d vs hvs]
      rfl
    · intro left hleft
      rw [hleft]
      simp only [ReadFile, Option.some_bind]
      exact afterFailedWrite_torn left _ _
    · intro hnot
      rw [afterFailedWrite_not_torn _ _ _ hnot, hprev]
      simp only [ReadFile, Option.some_bind]
      exact Finmap.lookup_insert_of_ne _ hvi
  unfold uploadProvider at hnp ⊢
  simp only [hparse, List.getElem?_cons_succ, List.getElem?_cons_zero, ne_eq, hname,
    not_true_eq_false, if_false] at hnp ⊢
  cases fs with
  | none =>
    simp only [hmkdir, Outcome.fails, Bool.false_eq_true, if_false] at hnp ⊢
    exact key ∅ (Or.inr ⟨rfl, rfl⟩) hnp
  | some d => exact key d (Or.inl rfl) hnp

/-- C8, amended, at a concrete input: a second archive of version 1.2.3 is
uploaded into the directory that holds the first, and the write of `1.2.3.json`
fails after one byte. -/
theorem upload_writes_index_first_witness :
    (FindStringSubmatch uploadReg archiveDarwin
        = ["terraform-provider-foo_1.2.3_darwin_arm64", "foo", "1.2.3", "darwin_arm64"] ∧
      tearWritePackages .mkdirAll = .done ∧ tearWritePackages .writeIndex = .done ∧
      tearWritePackages .writePackages ≠ .done ∧
      (uploadProvider tearWritePackages "foo" archiveDarwin zipBytes
        (some oneArchiveDir)).response ≠ .panicked) ∧
    ((uploadProvider tearWritePackages "foo" archiveDarwin zipBytes
        (some oneArchiveDir)).response ≠ .status 200 ∧
    listedVersions (uploadProvider tearWritePackages "foo" archiveDarwin zipBytes
        (some oneArchiveDir)).fs = insert "1.2.3" (listedVersions (some oneArchiveDir)) ∧
    (∀ left, tearWritePackages .writePackages = .torn left →
      ReadFile (uploadProvider tearWritePackages "foo" archiveDarwin zipBytes
        (some oneArchiveDir)).fs ("1.2.3" ++ ".json") = some left) ∧
    ((∀ left, tearWritePackages .writePackages ≠ .torn left) →
      ReadFile (uploadProvider tearWritePackages "foo" archiveDarwin zipBytes
        (some oneArchiveDir)).fs ("1.2.3" ++ ".json")
        = ReadFile (some oneArchiveDir) ("1.2.3" ++ ".json"))) :=
  ⟨by decide, upload_writes_index_first tearWritePackages "foo" archiveDarwin zipBytes
    (some oneArchiveDir) "terraform-provider-foo_1.2.3_darwin_arm64" "foo" "1.2.3"
    "darwin_arm64" (by decide) rfl (by decide) (by decide) (by decide) (by decide)⟩

/-- C8 as stated fails: when the second write of the first upload fails, the
version 1.2.3 is listed in `index.json` and `1.2.3.json` does not exist. -/
theorem upload_index_without_document :
    (uploadProvider failWritePackages "foo" archiveZip zipBytes none).response = .status 500 ∧
    "1.2.3" ∈ listedVersions (uploadProvider failWritePackages "foo" archiveZip zipBytes none).fs ∧
    ReadFile (uploadProvider failWritePackages "foo" archiveZip zipBytes none).fs "1.2.3.json"
      = none := by
  decide

/-- C9, amended: when `arch` is the only key of `{version}.json` and `version` is
not the string `index`, a delete without faults leaves no `{version}.json`; when
the archive is the only archive file of the directory the whole directory is
removed; otherwise `index.json` is removed if `version` was its only listed
version, and the listed versions are the former ones without `version`. -/
theorem delete_last_arch_cascade (version arch : String) (d : Dir) (m : Archives) (a : Archive)
    (hversion : version ≠ "index")
    (hdoc : archiveIndex (some d) version = some m)
    (hentry : m.lookup arch = some a)
    (honly : m.keys = {arch}) :
    ReadFile (deleteProvider noFault version arch (some d)).fs (version ++ ".json") = none ∧
    (providerArchives (some d) = {a.URL} →
      deleteProvider noFault version arch (some d) = ⟨.status 200, none⟩) ∧
    (providerArchives (some d) ≠ {a.URL} →
      (listedVersions (some d) = {version} →
        ReadFile (deleteProvider noFault version arch (some d)).fs "index.json" = none) ∧
      listedVersions (deleteProvider noFault version arch (some d)).fs
        = (listedVersions (some d)).erase version) := by
  have hvi : version ++ ".json" ≠ "index.json" := fun e => hversion ((json_name_eq_index _).mp e)
  have hcard : (m.erase arch).keys.card = 0 := by
    rw [Finmap.keys_erase, honly]; simp
  have hpk : deletePackages noFault version arch (some d)
      = .ok (some (m.erase arch), a.URL, some (d.erase (version ++ ".json"))) := by
    rcases deletePackages_noFault version arch (some d) with ⟨-, hnone⟩ |
      ⟨d1, m1, a1, hd1, hm1, ha1, hcase⟩
    · have := hnone m hdoc
      rw [hentry] at this
      cases this
    · simp only [Option.some.injEq] at hd1
      subst hd1
      rw [hdoc] at hm1
      simp only [Option.some.injEq] at hm1
      subst hm1
      rw [hentry] at ha1
      simp only [Option.some.injEq] at ha1
      subst ha1
      rcases hcase with ⟨-, h⟩ | ⟨hne, -⟩
      · exact h
      · exact absurd hcard hne
  obtain ⟨fs2, hidx, hlist2, hone2, hread2, hscan2⟩ :=
    deleteIndex_noFault version (some (m.erase arch)) (some (d.erase (version ++ ".json"))) hcard
  rw [listedVersions_erase_ne d _ hvi] at hlist2 hone2
  rw [providerArchives_erase d _ (json_not_archive version)] at hscan2
  have hgone : ReadFile fs2 (version ++ ".json") = none := by
    rw [hread2 _ hvi]
    simp [ReadFile, Finmap.lookup_erase]
  have hrun : deleteProvider noFault version arch (some d) = deleteArchive noFault a.URL fs2 := by
    unfold deleteProvider
    rw [hpk]
    simp only
    rw [hidx]
  rw [hrun]
  unfold deleteArchive
  rw [hscan2]
  by_cases hmem : a.URL ∈ providerArchives (some d)
  · rw [if_pos hmem]
    by_cases h1 : (providerArchives (some d)).card = 1
    · have hsingle : providerArchives (some d) = {a.URL} := by
        obtain ⟨y, hy⟩ := Finset.card_eq_one.mp h1
        rw [hy] at hmem ⊢
        rw [Finset.mem_singleton.mp hmem]
      rw [if_pos h1]
      simp only [noFault, Outcome.fails, Bool.false_eq_true, if_false]
      exact ⟨rfl, fun _ => trivial, fun hne => absurd hsingle hne⟩
    · rw [if_neg h1]
      simp only [noFault, Outcome.fails, Bool.false_eq_true, if_false]
      have hmem2 : a.URL ∈ providerArchives fs2 := by rw [hscan2]; exact hmem
      refine ⟨ReadFile_erase_none fs2 _ _ hgone, ?_, ?_⟩
      · intro hs
        rw [hs] at h1
        simp at h1
      · intro _
        refine ⟨fun hone => ?_, ?_⟩
        · rw [ReadFile_erase_archive fs2 _ hmem2]
          exact hone2 hone
        · rw [listedVersions_eq_of_index _ _ (ReadFile_erase_archive fs2 _ hmem2)]
          exact hlist2
  · rw [if_neg hmem]
    refine ⟨hgone, ?_, fun _ => ⟨hone2, hlist2⟩⟩
    intro hs
    rw [hs] at hmem
    simp at hmem

/-- C9, amended, at a concrete input: the only archive of the only version. -/
theorem delete_last_arch_cascade_witness :
    ("1.2.3" ≠ "index" ∧
      archiveIndex (some oneArchiveDir) "1.2.3"
        = some ((∅ : Archives).insert "linux_amd64" ⟨archiveZip, []⟩) ∧
      ((∅ : Archives).insert "linux_amd64" ⟨archiveZip, []⟩).lookup "linux_amd64"
        = some ⟨archiveZip, []⟩ ∧
      ((∅ : Archives).insert "linux_amd64" ⟨archiveZip, []⟩).keys = {"linux_amd64"}) ∧
    (ReadFile (deleteProvider noFault "1.2.3" "linux_amd64" (some oneArchiveDir)).fs
      ("1.2.3" ++ ".json") = none ∧
    (providerArchives (some oneArchiveDir) = {archiveZip} →
      deleteProvider noFault "1.2.3" "linux_amd64" (some oneArchiveDir) = ⟨.status 200, none⟩) ∧
    (providerArchives (some oneArchiveDir) ≠ {archiveZip} →
      (listedVersions (some oneArchiveDir) = {"1.2.3"} →
        ReadFile (deleteProvider noFault "1.2.3" "linux_amd64" (some oneArchiveDir)).fs
          "index.json" = none) ∧
      listedVersions (deleteProvider noFault "1.2.3" "linux_amd64" (some oneArchiveDir)).fs
        = (listedVersions (some oneArchiveDir)).erase "1.2.3")) :=
  ⟨by decide, delete_last_arch_cascade "1.2.3" "linux_amd64" oneArchiveDir
    ((∅ : Archives).insert "linux_amd64" ⟨archiveZip, []⟩) ⟨archiveZip, []⟩
    (by decide) (by decide) (by decide) (by decide)⟩

/-- C9 as stated fails: versions 1.0 and 2.0 are listed and only the archive of
1.0 is in the directory; deleting (1.0, linux_amd64) removes the directory, so
`index.json` is gone although 1.0 was not its only version.  And a delete with
version `index` whose only key is in `index.json` itself removes `index.json`
although it lists another version. -/
theorem delete_last_arch_removes_directory :
    ((archiveIndex (some driftDir) "1.0").map Finmap.keys = some {"linux_amd64"} ∧
      listedVersions (some driftDir) = {"1.0", "2.0"} ∧
      deleteProvider noFault "1.0" "linux_amd64" (some driftDir) = ⟨.status 200, none⟩ ∧
      ReadFile (deleteProvider noFault "1.0" "linux_amd64" (some driftDir)).fs "index.json"
        = none ∧
      "2.0" ∉ listedVersions (deleteProvider noFault "1.0" "linux_amd64" (some driftDir)).fs) ∧
    ((archiveIndex (some aliasDir) "index").map Finmap.keys = some {"a"} ∧
      listedVersions (some aliasDir) = {"index", "1.0"} ∧
      (deleteProvider noFault "index" "a" (some aliasDir)).fs
        = some (aliasDir.erase "index.json") ∧
      "1.0" ∉ listedVersions (deleteProvider noFault "index" "a" (some aliasDir)).fs) := by
  decide

/-- C10: with an `index.json` that is `{}` or not JSON, or a `{version}.json` that
is `{}`, a valid upload panics on the insertion into the nil map; nothing is
written and no error status is answered.  With both documents absent the same
upload answers 200. -/
theorem upload_corrupt_index_panics :
    uploadProvider noFault "foo" archiveZip zipBytes (some corruptIndexDir)
      = ⟨.panicked, some corruptIndexDir⟩ ∧
    uploadProvider noFault "foo" archiveZip zipBytes (some invalidIndexDir)
      = ⟨.panicked, some invalidIndexDir⟩ ∧
    uploadProvider noFault "foo" archiveZip zipBytes (some corruptPackagesDir)
      = ⟨.panicked, some corruptPackagesDir⟩ ∧
    uploadProvider noFault "foo" archiveZip zipBytes (some ∅)
      = ⟨.status 200, some oneArchiveDir⟩ := by
  decide

end TerraformMirror
